import Mathlib

/-!
Verification of the burrow-detection core of pass4.py (class FourthPass).

The development shallowly embeds the mask-update, chunk-extraction,
connectivity-resolution and track-association code of
src/mousetracking/algorithm/pass4.py.  Rasters are embedded as functions
from integer pixel coordinates, intensities as rationals, and the external
geometry and image primitives (shapely distances, convex hulls, polygon
unions, connected-component labelling) as abstract parameters, exactly at
the granularity at which pass4.py calls them.
-/

namespace Pass4

/-! ## Rasters and morphology (get_ground_mask, update_burrow_mask)

A raster is a function from integer pixel coordinates; the frame is the
rectangle [0, w) x [0, h).  cv2 erosion treats out-of-frame pixels as set
and dilation treats them as unset (the default border values), which the
definitions below reproduce. -/

/-- A grayscale image: rational intensity at every integer pixel. -/

def Img : Type := ℤ → ℤ → ℚ

/-- A binary mask. -/

def Mask : Type := ℤ → ℤ → Bool

/-- Membership of a pixel in the w x h frame rectangle. -/

def inGrid (w h : ℕ) (x y : ℤ) : Bool :=
  decide (0 ≤ x) && decide (x < (w : ℤ)) && decide (0 ≤ y) && decide (y < (h : ℤ))

/-- Offsets of the 3 x 3 elliptic structuring element
cv2.getStructuringElement(cv2.MORPH_ELLIPSE, (3, 3)): the centre pixel and
its four axis neighbours. -/

def kernel3 : List (ℤ × ℤ) := [(0, 0), (1, 0), (-1, 0), (0, 1), (0, -1)]

/-- cv2.dilate with the 3 x 3 elliptic kernel; pixels outside the frame do
not contribute. -/

def dilate (w h : ℕ) (m : Mask) : Mask := fun x y =>
  kernel3.any fun k => inGrid w h (x - k.1) (y - k.2) && m (x - k.1) (y - k.2)

/-- cv2.erode with the 3 x 3 elliptic kernel; pixels outside the frame are
treated as set. -/

def erode (w h : ℕ) (m : Mask) : Mask := fun x y =>
  kernel3.all fun k => !inGrid w h (x + k.1) (y + k.2) || m (x + k.1) (y + k.2)

/-- cv2.morphologyEx(..., cv2.MORPH_CLOSE, kernel1): dilation followed by
erosion. -/

def morphClose (w h : ℕ) (m : Mask) : Mask := erode w h (dilate w h m)

/-- cv2.morphologyEx(..., cv2.MORPH_OPEN, kernel1): erosion followed by
dilation. -/

def morphOpen (w h : ℕ) (m : Mask) : Mask := dilate w h (erode w h m)

/-- Sum of a natural-valued raster over the w x h frame, as numpy
array.sum() computes it. -/

def gridSum (w h : ℕ) (f : ℤ → ℤ → ℕ) : ℕ :=
  ((List.range h).map fun y => ((List.range w).map fun x => f (x : ℤ) (y : ℤ)).sum).sum

/-- Raster produced by get_ground_mask: cv2.fillPoly paints the value 255
on the region below the ground profile and leaves 0 elsewhere.  The
polygon fill itself is an external image primitive, abstracted here as the
region predicate. -/

def groundRaster (region : Mask) : ℤ → ℤ → ℕ := fun x y => if region x y then 255 else 0

/-- The provisional excavation mask of update_burrow_mask:
diff = -background_avg + frame, mask = (diff < -change_threshold). -/

def excMask (frame bg : Img) (thr : ℚ) : Mask := fun x y =>
  decide (frame x y - bg x y < -thr)

/-- Raster view of a mask holding 0 or 1 per pixel, as numpy stores a
boolean array assigned into a uint8 buffer. -/

def maskRaster (m : Mask) : ℤ → ℤ → ℕ := fun x y => if m x y then 1 else 0

/-- update_burrow_mask: flag pixels darker than background by more than
the change threshold; abort (returning the mask unchanged) when
mask.sum() > 0.1 * ground_mask.sum(); otherwise open the flagged mask,
OR it into the persistent burrow mask, close the result and clear all
pixels outside the ground region. -/

def updateBurrowMask (w h : ℕ) (region : Mask) (frame bg : Img) (thr : ℚ)
    (burrow : Mask) : Mask :=
  let mask := excMask frame bg thr
  if ((gridSum w h (maskRaster mask) : ℚ) >
      (1 / 10) * (gridSum w h (groundRaster region) : ℚ)) then
    burrow
  else
    let opened := morphOpen w h mask
    let b1 : Mask := fun x y => burrow x y || opened x y
    let b2 := morphClose w h b1
    fun x y => if groundRaster region x y = 0 then false else b2 x y

/-! ## Chunk extraction (get_burrow_chunks)

get_burrow_chunks labels the connected components of the burrow mask and
filters them by area, depth below the ground line and mean intensity.  The
labelling, the region properties and the contour extraction are external
primitives, so a component is embedded as the record of the quantities the
code reads from it. -/

/-- One labelled connected component of the burrow mask: its pixel area
(props.area), the distance of the ground line to its centroid, the mean
frame intensity over its pixels and its outer contour from
cv2.findContours after squeezing. -/

structure Component where
  area : ℚ
  centroidDist : ℚ
  meanColor : ℚ
  contour : List (ℚ × ℚ)
deriving DecidableEq

/-- Brightness threshold of get_burrow_chunks:
fraction * color_sand + (1 - fraction) * color_sky with fraction = 0.8. -/

def chunkColorThresh (sand sky : ℚ) : ℚ := (8 / 10) * sand + (1 - 8 / 10) * sky

/-- get_burrow_chunks: walk the components in label order; skip a component
whose area is below the minimum, skip one whose centroid is closer to the
ground line than half the ground-point distance, skip and clear from the
mask one whose mean intensity exceeds the brightness threshold, and append
the contour of a survivor only when it has more than two points.  The
first result is the chunk list, the second the components cleared from the
persistent mask. -/

def getBurrowChunks (areaMin gpd sand sky : ℚ) :
    List Component → List (List (ℚ × ℚ)) × List Component
  | [] => ([], [])
  | c :: rest =>
    let r := getBurrowChunks areaMin gpd sand sky rest
    if c.area < areaMin then r
    else if c.centroidDist < gpd / 2 then r
    else if c.meanColor > chunkColorThresh sand sky then (r.1, c :: r.2)
    else if 2 < c.contour.length then (c.contour :: r.1, r.2)
    else r

/-- The chunk filter as claim C5 words it: keep exactly the components
whose area is at least the minimum, whose centroid is at least half the
ground-point distance from the ground line and whose mean intensity does
not exceed the brightness threshold; every survivor contributes its
contour. -/

def specBurrowChunks (areaMin gpd sand sky : ℚ) (comps : List Component) :
    List (List (ℚ × ℚ)) :=
  (comps.filter fun c => decide (areaMin ≤ c.area) && decide (gpd / 2 ≤ c.centroidDist) &&
    decide (c.meanColor ≤ chunkColorThresh sand sky)).map (·.contour)

/-! ## Initial mask bootstrap (get_initial_burrow_mask)

The loop thresholds the raw frame against a sand/sky blend colour,
restricted to the eroded ground mask, and keeps lowering the threshold by
one while the quantity max(ndimage.measurements.sum(labels, labels,
index=range(1, num_features + 1))) stays above ten times the minimum
burrow area.  Because the summed input is the label image itself, that
quantity is the maximum over components of (1-based label index) times
(component area), not the largest component area.  Labelling is an
external primitive, abstracted as a function from masks to component
lists in label order. -/

/-- A labelled component of the initial mask: its area, the distance of
the ground line to its centroid, and its pixels. -/

structure IComponent where
  area : ℚ
  centroidDist : ℚ
  pixels : List (ℤ × ℤ)
deriving DecidableEq

/-- Initial threshold colour of get_initial_burrow_mask:
fraction * color_sand + (1 - fraction) * color_sky with fraction = 0.33. -/

def initThresh (sand sky : ℚ) : ℚ := (33 / 100) * sand + (1 - 33 / 100) * sky

/-- One round of thresholding: (frame < color_thresh) with every pixel
outside the eroded ground mask cleared. -/

def initMaskAt (egMask : Mask) (frame : Img) (t : ℚ) : Mask := fun x y =>
  decide (frame x y < t) && egMask x y

/-- ndimage.measurements.sum(labels, labels, index=range(1, n + 1)) with
the label image as summed input: entry k of the result is the 1-based
label index k times the area of component k. -/

def labelAreasFrom (k : ℚ) : List IComponent → List ℚ
  | [] => []
  | c :: rest => k * c.area :: labelAreasFrom (k + 1) rest

/-- The list the source binds to areas before taking its maximum. -/

def labelAreasCode (comps : List IComponent) : List ℚ := labelAreasFrom 1 comps

/-- Python max over a list; none on an empty list, where the source
raises. -/

def listMax : List ℚ → Option ℚ
  | [] => none
  | a :: rest => some (rest.foldl max a)

/-- The threshold-lowering loop of get_initial_burrow_mask, with explicit
fuel standing for the unbounded while loop: threshold the frame, take
max(areas) over the labelled components, and either return the current
mask (with the threshold that produced it) or lower the threshold by one
and repeat. -/

def initLoop (label : Mask → List IComponent) (egMask : Mask) (frame : Img)
    (areaMin : ℚ) : ℕ → ℚ → Option (Mask × ℚ)
  | 0, _ => none
  | fuel + 1, t =>
    let m := initMaskAt egMask frame t
    match listMax (labelAreasCode (label m)) with
    | none => none
    | some largest =>
      if largest > 10 * areaMin then initLoop label egMask frame areaMin fuel (t - 1)
      else some (m, t)

/-- Second phase of get_initial_burrow_mask: clear every component whose
centroid is farther from the ground line than the ground-point distance;
also returns the cleared components. -/

def initPhase2 (label : Mask → List IComponent) (gpd : ℚ) (m : Mask) :
    Mask × List IComponent :=
  let cleared := (label m).filter fun c => decide (gpd < c.centroidDist)
  (fun x y => m x y && !(cleared.any fun c => c.pixels.contains (x, y)), cleared)

/-- get_initial_burrow_mask: run the threshold-lowering loop from the
initial blend colour, then discard the components lying too far below the
ground line. -/

def getInitialBurrowMask (label : Mask → List IComponent) (egMask : Mask) (frame : Img)
    (areaMin gpd sand sky : ℚ) (fuel : ℕ) : Option (Mask × List IComponent) :=
  (initLoop label egMask frame areaMin fuel (initThresh sand sky)).map fun p =>
    initPhase2 label gpd p.1

/-- Failing input for C8: the frame whose single bright test pixel leaves
the thresholded mask nonempty at threshold 10 and empty below it. -/

def bugFrame : Img := fun x y => if x = 0 ∧ y = 0 then 19 / 2 else 100

/-- Failing input for C8: labelling that yields two components of area 6
for the threshold-10 mask and one component of area 6 afterwards. -/

def bugLabel : Mask → List IComponent := fun m =>
  if m 0 0 then [⟨6, 0, []⟩, ⟨6, 0, []⟩] else [⟨6, 0, []⟩]

/-! ## Connectivity resolver (connect_burrow_chunks)

connect_burrow_chunks works on a Python list of chunk contours, mutating
entries in place and finding aliases of a merged entry by object identity
(id).  It is embedded over an abstract outline type: each list slot pairs
an identity tag with an outline, fresh tags are drawn from a counter
starting past the initial tags, and the shapely operations that build new
outlines (bridging towards a structure, polygon union, final contour
regularisation) are the fields of GeomOps.  The outlines painted into the
persistent burrow mask by _connect_burrow_to_structure (its cv2.fillPoly
side effect) are collected in the painted list. -/

/-- The geometry primitives connect_burrow_chunks calls: gdist c is the
distance of the ground polyline to the ring of contour c; dist is the
distance between two rings; bridge c s is _connect_burrow_to_structure
applied to contour c and structure s (none for the ground polyline, some r
for the ring of chunk r); mergeU e r is the regularized enclosing outline
of the union of enlarged chunk e with the polygon of r; regC is
regularize_contour_points wrapped into the Burrow constructor. -/

structure GeomOps (α : Type) where
  gdist : α → ℚ
  dist : α → α → ℚ
  bridge : α → Option α → α
  mergeU : α → α → α
  regC : α → α

/-- The mutable state of connect_burrow_chunks: the chunk list (identity
tag and outline per slot), the counter supplying fresh tags, the connected
and disconnected index lists, and the outlines painted into the mask. -/

structure RState (α : Type) where
  slots : List (ℕ × α)
  nextId : ℕ
  connected : List ℕ
  disconnected : List ℕ
  painted : List α

/-- Slot access burrow_chunks[k]. -/

def slotAt {α : Type} [Inhabited α] (st : RState α) (k : ℕ) : ℕ × α :=
  st.slots.getD k (0, default)

/-- ground_dist: per-chunk distance to the ground polyline, computed once
from the input chunks. -/

def groundDists {α : Type} (ops : GeomOps α) (chunks : List α) : List ℚ :=
  chunks.map ops.gdist

/-- burrow_dist: the symmetric pairwise distance matrix over the input
chunks with infinity on the diagonal, computed once before any merging. -/

def burrowDist {α : Type} [Inhabited α] (ops : GeomOps α) (chunks : List α)
    (i j : ℕ) : WithTop ℚ :=
  if i = j then ⊤
  else if i < j then ((ops.dist (chunks.getD i default) (chunks.getD j default) : ℚ) : WithTop ℚ)
  else ((ops.dist (chunks.getD j default) (chunks.getD i default) : ℚ) : WithTop ℚ)

/-- np.min(burrow_dist[k]): minimum of row k of the distance matrix. -/

def rowMin {α : Type} [Inhabited α] (ops : GeomOps α) (chunks : List α) (k : ℕ) :
    WithTop ℚ :=
  ((List.range chunks.length).map fun j => burrowDist ops chunks k j).foldr min ⊤

/-- np.argmin: index of the first occurrence of the minimum of a list. -/

def argminL {β : Type} [LinearOrder β] [Inhabited β] : List β → ℕ
  | [] => 0
  | [_] => 0
  | a :: b :: rest =>
    let j := argminL (b :: rest)
    if a ≤ (b :: rest).getD j default then 0 else j + 1

/-- Initial state: the input chunks in their slots, each tagged with its
own index, the fresh-tag counter past them, everything else empty. -/

def initState {α : Type} (chunks : List α) : RState α :=
  { slots := chunks.enum
    nextId := chunks.length
    connected := []
    disconnected := []
    painted := [] }

/-- One step of the direct-classification loop of connect_burrow_chunks:
chunk k joins connected when its ground distance is strictly below the
minimum of its distance-matrix row, bridging it to the ground (and
painting the result) when that ground distance exceeds 1; otherwise k
joins disconnected. -/

def classifyStep {α : Type} [Inhabited α] (ops : GeomOps α) (gd : List ℚ)
    (rmin : ℕ → WithTop ℚ) (st : RState α) (k : ℕ) : RState α :=
  if ((gd.getD k 0 : ℚ) : WithTop ℚ) < rmin k then
    if gd.getD k 0 > 1 then
      let nw := ops.bridge (slotAt st k).2 none
      { st with
        slots := st.slots.set k (st.nextId, nw)
        nextId := st.nextId + 1
        painted := st.painted ++ [nw]
        connected := st.connected ++ [k] }
    else { st with connected := st.connected ++ [k] }
  else { st with disconnected := st.disconnected ++ [k] }

/-- The direct-classification loop over all chunk indices. -/

def classifyPhase {α : Type} [Inhabited α] (ops : GeomOps α) (chunks : List α) :
    RState α :=
  (List.range chunks.length).foldl
    (classifyStep ops (groundDists ops chunks) (rowMin ops chunks)) (initState chunks)

/-- The fallback of connect_burrow_chunks: when no chunk was classified
connected, force-connect the chunk of minimal ground distance, bridging
and painting it unconditionally. -/

def forcePhase {α : Type} [Inhabited α] (ops : GeomOps α) (gd : List ℚ)
    (st : RState α) : RState α :=
  if st.connected.isEmpty then
    let k := argminL gd
    let nw := ops.bridge (slotAt st k).2 none
    { st with
      slots := st.slots.set k (st.nextId, nw)
      nextId := st.nextId + 1
      painted := st.painted ++ [nw]
      connected := [k]
      disconnected := st.disconnected.erase k }
  else st

/-- One iteration of the merge loop: take the argmin over the row-major
flattening of the distance submatrix burrow_dist[disconnected][:,
connected], bridge the selected disconnected chunk c1 to the current
outline of the selected connected chunk c2 (painting the enlarged chunk),
build the merged outline, store it in slot c1 under a fresh tag, rewrite
every slot holding the identity of c2 to the merged outline, delete position k1
from disconnected and append c1 to connected. -/

def mergeStep {α : Type} [Inhabited α] (ops : GeomOps α) (bd : ℕ → ℕ → WithTop ℚ)
    (st : RState α) : RState α :=
  let flat := st.disconnected.flatMap fun c1 => st.connected.map fun c2 => bd c1 c2
  let idx := argminL flat
  let k1 := idx / st.connected.length
  let k2 := idx % st.connected.length
  let c1 := st.disconnected.getD k1 0
  let c2 := st.connected.getD k2 0
  let strc := (slotAt st c2).2
  let enlarged := ops.bridge (slotAt st c1).2 (some strc)
  let outline := ops.mergeU enlarged strc
  let oldId := (slotAt st c2).1
  let slots1 := st.slots.set c1 (st.nextId, outline)
  { slots := slots1.map fun s => if s.1 = oldId then (st.nextId, outline) else s
    nextId := st.nextId + 1
    connected := st.connected ++ [c1]
    disconnected := st.disconnected.eraseIdx k1
    painted := st.painted ++ [enlarged] }

/-- The while loop over the disconnected set, with explicit fuel standing
for the unbounded while loop. -/

def mergeLoop {α : Type} [Inhabited α] (ops : GeomOps α) (bd : ℕ → ℕ → WithTop ℚ) :
    ℕ → RState α → RState α
  | 0, st => st
  | fuel + 1, st =>
    if st.disconnected.isEmpty then st
    else mergeLoop ops bd fuel (mergeStep ops bd st)

/-- The full resolver state after classification, forced connection and
the merge loop run with fuel equal to the disconnected count. -/

def resolveState {α : Type} [Inhabited α] (ops : GeomOps α) (chunks : List α) :
    RState α :=
  let st1 := classifyPhase ops chunks
  let st2 := forcePhase ops (groundDists ops chunks) st1
  mergeLoop ops (burrowDist ops chunks) st2.disconnected.length st2

/-- Helper of uniqueById carrying the identities already seen. -/

def uniqueByIdAux {α : Type} (seen : List ℕ) : List (ℕ × α) → List (ℕ × α)
  | [] => []
  | s :: rest =>
    if s.1 ∈ seen then uniqueByIdAux seen rest
    else s :: uniqueByIdAux (s.1 :: seen) rest

/-- Modelled from the spec: unique_based_on_id (imported from the
repository module mousetracking/algorithm/utils.py, which is not among the
given files) keeps the first occurrence of each object identity, so the
final burrow list wraps each unique merged outline once. -/

def uniqueById {α : Type} (l : List (ℕ × α)) : List (ℕ × α) := uniqueByIdAux [] l

/-- connect_burrow_chunks: return [] at once on an empty chunk list;
otherwise run the resolver and wrap each identity-unique final outline as
a Burrow.  The second projection collects the outlines painted into the
persistent burrow mask along the way. -/

def connectBurrowChunks {α : Type} [Inhabited α] (ops : GeomOps α) (chunks : List α) :
    List α × List α :=
  if chunks.isEmpty then ([], [])
  else
    let st := resolveState ops chunks
    ((uniqueById st.slots).map fun s => ops.regC s.2, st.painted)

/-- The classification fold over the first m chunk indices. -/

def classifyFold {α : Type} [Inhabited α] (ops : GeomOps α) (chunks : List α)
    (m : ℕ) : RState α :=
  (List.range m).foldl
    (classifyStep ops (groundDists ops chunks) (rowMin ops chunks)) (initState chunks)

/-! ## Outline provenance and groundedness

To state the ground-connectivity invariant, the resolver is run at the
free algebra of outline constructions: an outline is an input contour, a
bridge of a contour towards the ground or towards another outline, a
polygon union from a merge, or a regularised outline.  Groundedness is
relative to the set of directly classified chunk indices. -/

inductive Geo where
  | base : ℕ → Geo
  | bridged : Geo → Option Geo → Geo
  | merged : Geo → Geo → Geo
  | regd : Geo → Geo

instance : Inhabited Geo := ⟨Geo.base 0⟩

/-- The resolver geometry instantiated with the free outline algebra; the
distance functions stay abstract. -/

def geoOps (gdf : Geo → ℚ) (df : Geo → Geo → ℚ) : GeomOps Geo :=
  { gdist := gdf, dist := df, bridge := Geo.bridged, mergeU := Geo.merged,
    regC := Geo.regd }

/-- An outline is connected to the ground, given the list S of directly
classified chunk indices: an input contour is when its index is in S, a
bridge to the ground always is, a bridge to a structure is when the

structure is, a merge is when either side is, and regularisation changes
nothing. -/

def grounded (S : List ℕ) : Geo → Bool
  | .base i => S.contains i
  | .bridged _ none => true
  | .bridged _ (some s) => grounded S s
  | .merged a b => grounded S a || grounded S b
  | .regd g => grounded S g

/-- The resolver invariant for the free outline algebra: the slot list
keeps its length, identity tags stay below the fresh counter, tags below
the chunk count still name their own slot, disconnected slots are
untouched input contours, connected slots hold grounded outlines, the
disconnected list has no duplicates and is disjoint from the connected
list, and together they cover all chunk indices. -/

def Inv (n : ℕ) (S : List ℕ) (st : RState Geo) : Prop :=
  st.slots.length = n ∧
  n ≤ st.nextId ∧
  (∀ k, k < n → (slotAt st k).1 < st.nextId) ∧
  (∀ k, k < n → (slotAt st k).1 < n → (slotAt st k).1 = k) ∧
  (∀ k ∈ st.disconnected, k < n ∧ slotAt st k = (k, Geo.base k)) ∧
  (∀ k ∈ st.connected, k < n ∧ grounded S (slotAt st k).2 = true) ∧
  st.disconnected.Nodup ∧
  (∀ k ∈ st.connected, k ∉ st.disconnected) ∧
  (∀ k, k < n → k ∈ st.connected ∨ k ∈ st.disconnected)

/-! ## Track association (add_burrows_to_tracks)

The Burrow and BurrowTrack classes live in the repository module
mousetracking/algorithm/objects/burrow.py, which is not among the given
files; the track record and its operations below are modelled from the
specification, while the matching loop itself follows
add_burrows_to_tracks.  Burrow outlines are an abstract type with
decidable equality and an abstract intersection test. -/

/-- Modelled from the spec: a BurrowTrack is an append-only ordered
sequence of (frame index, outline) pairs with an active flag. -/

structure Track (α : Type) where
  hist : List (ℕ × α)
  active : Bool
deriving DecidableEq

instance {α : Type} : Inhabited (Track α) := ⟨⟨[], false⟩⟩

/-- Modelled from the spec: track.last, the most recent outline of the
track. -/

def Track.lastB {α : Type} (t : Track α) : Option α := t.hist.getLast?.map Prod.snd

/-- Modelled from the spec: track.append(frame_id, burrow) appends one
history entry. -/

def Track.appendB {α : Type} (t : Track α) (fid : ℕ) (b : α) : Track α :=
  { t with hist := t.hist ++ [(fid, b)] }

/-- Modelled from the spec: create_track starts a new active track whose
history begins at the current frame. -/

def mkTrack {α : Type} (fid : ℕ) (b : α) : Track α := ⟨[(fid, b)], true⟩

/-- burrow.intersects(track.last). -/

def matchesB {α : Type} (inter : α → α → Bool) (b : α) (t : Track α) : Bool :=
  match t.lastB with
  | some l => inter b l
  | none => false

/-- The snapshot active_tracks taken at the start of
add_burrows_to_tracks, as indices into the track list. -/

def activeIdx {α : Type} (tracks : List (Track α)) : List ℕ :=
  (List.range tracks.length).filter fun i => (tracks.getD i default).active

/-- The position of the first element satisfying q while scanning with an
enumeration counter, as the for/break over enumerate(active_tracks). -/

def firstMatch (q : ℕ → Bool) : List ℕ → ℕ → Option ℕ
  | [], _ => none
  | i :: rest, k => if q i then some k else firstMatch q rest (k + 1)

/-- The fold state while the burrows of the frame are processed: the
track list and the set tracks_extended of matched snapshot positions. -/

structure TState (α : Type) where
  tracks : List (Track α)
  extended : List ℕ

/-- Processing of one burrow: scan the snapshot in order for the first
track whose last outline the burrow intersects; record its snapshot
position and extend it, appending only when the burrow differs from the
last outline of the track; create a brand-new track when nothing matches. -/

def stepBurrow {α : Type} [DecidableEq α] (inter : α → α → Bool) (fid : ℕ)
    (snap : List ℕ) (st : TState α) (b : α) : TState α :=
  match firstMatch (fun i => matchesB inter b (st.tracks.getD i default)) snap 0 with
  | some k =>
    let i := snap.getD k 0
    let t := st.tracks.getD i default
    { tracks := if t.lastB = some b then st.tracks
        else st.tracks.set i (t.appendB fid b)
      extended := st.extended ++ [k] }
  | none => { st with tracks := st.tracks ++ [mkTrack fid b] }

/-- The deactivation sweep over enumerate(active_tracks): every snapshot
track whose position is not in tracks_extended has its active flag set to
False. -/

def deactLoop {α : Type} (ext : List ℕ) : List ℕ → ℕ → List (Track α) → List (Track α)
  | [], _, tr => tr
  | i :: rest, k, tr =>
    deactLoop ext rest (k + 1)
      (if k ∈ ext then tr else tr.set i { tr.getD i default with active := false })

/-- add_burrows_to_tracks: snapshot the active tracks, process each
burrow in order, then deactivate the unmatched snapshot tracks. -/

def addBurrowsToTracks {α : Type} [DecidableEq α] (inter : α → α → Bool) (fid : ℕ)
    (burrows : List α) (tracks : List (Track α)) : List (Track α) :=
  let snap := activeIdx tracks
  let st := burrows.foldl (stepBurrow inter fid snap) ⟨tracks, []⟩
  deactLoop st.extended snap 0 st.tracks

/-! ## Lemmas and theorems -/

/-- Dilation by an offset of the kernel reaches back to a set pixel. -/

lemma dilate_shift (w h : ℕ) (m : Mask) (x y : ℤ) (k : ℤ × ℤ) (hk : k ∈ kernel3)
    (hg : inGrid w h x y = true) (hm : m x y = true) :
    dilate w h m (x + k.1) (y + k.2) = true := by
  unfold dilate
  rw [List.any_eq_true]
  exact ⟨k, hk, by simpa [add_sub_cancel_right] using And.intro hg hm⟩

/-- Morphological closing never clears a set in-frame pixel. -/

lemma morphClose_extensive (w h : ℕ) (m : Mask) (x y : ℤ)
    (hg : inGrid w h x y = true) (hm : m x y = true) :
    morphClose w h m x y = true := by
  unfold morphClose erode
  rw [List.all_eq_true]
  intro k hk
  rw [Bool.or_eq_true]
  by_cases hgi : inGrid w h (x + k.1) (y + k.2) = true
  · exact Or.inr (dilate_shift w h m x y k hk hg hm)
  · simp [hgi]

/-- C9: Monotonic accretion.  For every non-aborted call of
update_burrow_mask, every burrow-mask pixel that was set before the call
and lies inside the current ground region is still set after the call:
the OR-in of newly excavated pixels and the morphological closing only add
pixels, and the only pixels cleared are those outside the ground region. -/

theorem update_burrow_mask_monotone (w h : ℕ) (region : Mask) (frame bg : Img)
    (thr : ℚ) (burrow : Mask) (x y : ℤ)
    (hab : ¬ ((gridSum w h (maskRaster (excMask frame bg thr)) : ℚ) >
      (1 / 10) * (gridSum w h (groundRaster region) : ℚ)))
    (hg : inGrid w h x y = true)
    (hb : burrow x y = true) (hr : region x y = true) :
    updateBurrowMask w h region frame bg thr burrow x y = true := by
  unfold updateBurrowMask
  rw [if_neg hab]
  have h255 : groundRaster region x y = 255 := by simp [groundRaster, hr]
  simp only [h255]
  rw [if_neg (by simp)]
  exact morphClose_extensive w h _ x y hg (by simp [hb])

/-- Closed witness for update_burrow_mask_monotone on a 1 x 1 frame. -/

theorem update_burrow_mask_monotone_witness :
    (¬ ((gridSum 1 1 (maskRaster (excMask (fun _ _ => 0) (fun _ _ => 0) 1)) : ℚ) >
      (1 / 10) * (gridSum 1 1 (groundRaster fun _ _ => true) : ℚ))) ∧
    updateBurrowMask 1 1 (fun _ _ => true) (fun _ _ => 0) (fun _ _ => 0) 1
      (fun _ _ => true) 0 0 = true := by
  have hab : ¬ ((gridSum 1 1 (maskRaster (excMask (fun _ _ => 0) (fun _ _ => 0) 1)) : ℚ) >
      (1 / 10) * (gridSum 1 1 (groundRaster fun _ _ => true) : ℚ)) := by
    have h1 : gridSum 1 1 (maskRaster (excMask (fun _ _ => 0) (fun _ _ => 0) 1)) = 0 := by
      norm_num [gridSum, maskRaster, excMask, groundRaster, List.range_succ]
    have h2 : gridSum 1 1 (groundRaster fun _ _ => true) = 255 := by
      norm_num [gridSum, groundRaster, List.range_succ]
    rw [h1, h2]
    norm_num
  exact ⟨hab, update_burrow_mask_monotone 1 1 (fun _ _ => true) (fun _ _ => 0)
    (fun _ _ => 0) 1 (fun _ _ => true) 0 0 hab (by decide) rfl rfl⟩

/-- C2, code evaluated at the failing input.  In update_burrow_mask the
flagged mask holds 0/1 values while the ground raster holds 0/255 values,
so the guard mask.sum() > 0.1 * ground_mask.sum() compares the flagged
pixel count against 25.5 times the ground pixel count.  On a 2 x 1 frame
whose whole ground region (2 pixels) is newly flagged (100 percent, far
above 10 percent), the update is not aborted and the mask changes. -/

theorem update_burrow_mask_flicker_check_dead :
    ((gridSum 2 1 (maskRaster (excMask (fun _ _ => 0) (fun _ _ => 10) 5)) : ℚ) >
      (1 / 10) * (gridSum 2 1 (maskRaster fun _ _ => true) : ℚ)) ∧
    updateBurrowMask 2 1 (fun _ _ => true) (fun _ _ => 0) (fun _ _ => 10) 5
      (fun _ _ => false) 0 0 = true := by
  have hflag : gridSum 2 1 (maskRaster (excMask (fun _ _ => 0) (fun _ _ => 10) 5)) = 2 := by
    norm_num [gridSum, maskRaster, excMask, List.range_succ]
  have hcount : gridSum 2 1 (maskRaster fun _ _ => true) = 2 := by
    norm_num [gridSum, maskRaster, List.range_succ]
  have hraster : gridSum 2 1 (groundRaster fun _ _ => true) = 510 := by
    norm_num [gridSum, groundRaster, List.range_succ]
  refine ⟨by rw [hflag, hcount]; norm_num, ?_⟩
  have hguard : ¬ ((gridSum 2 1 (maskRaster (excMask (fun _ _ => 0) (fun _ _ => 10) 5)) : ℚ) >
      (1 / 10) * (gridSum 2 1 (groundRaster fun _ _ => true) : ℚ)) := by
    rw [hflag, hraster]; norm_num
  have herode : erode 2 1 (excMask (fun _ _ => 0) (fun _ _ => 10) 5) 0 0 = true := by
    norm_num [erode, kernel3, inGrid, excMask]
  have hopen : morphOpen 2 1 (excMask (fun _ _ => 0) (fun _ _ => 10) 5) 0 0 = true := by
    unfold morphOpen
    simpa using dilate_shift 2 1 (erode 2 1 (excMask (fun _ _ => 0) (fun _ _ => 10) 5))
      0 0 (0, 0) (by simp [kernel3]) (by decide) herode
  unfold updateBurrowMask
  rw [if_neg hguard]
  have h255 : groundRaster (fun _ _ => true) 0 0 = 255 := rfl
  simp only [h255]
  rw [if_neg (by simp)]
  exact morphClose_extensive 2 1 _ 0 0 (by decide) (by simp [hopen])

/-- C5, counterexample: a component that passes the area, depth and
brightness checks but whose extracted contour has only two points is
dropped by the code, while the claim keeps it. -/

theorem chunk_filter_two_point_contour :
    (getBurrowChunks 1 2 10 10 [⟨1, 5, 0, [(0, 0), (1, 0)]⟩]).1 = [] ∧
    specBurrowChunks 1 2 10 10 [⟨1, 5, 0, [(0, 0), (1, 0)]⟩] = [[(0, 0), (1, 0)]] ∧
    (getBurrowChunks 1 2 10 10 [⟨1, 5, 0, [(0, 0), (1, 0)]⟩]).1 ≠
      specBurrowChunks 1 2 10 10 [⟨1, 5, 0, [(0, 0), (1, 0)]⟩] := by
  refine ⟨?_, ?_, ?_⟩ <;>
    norm_num [getBurrowChunks, specBurrowChunks, chunkColorThresh, List.filter]

/-- C5, amended: get_burrow_chunks keeps exactly the components whose area
is at least the minimum, whose centroid is at least half the ground-point
distance from the ground line, whose mean intensity does not exceed the
brightness threshold and whose outer contour has more than two points,
each contributing its contour; it clears from the mask exactly the
components that pass the area and depth checks but exceed the brightness
threshold. -/

theorem get_burrow_chunks_filter (areaMin gpd sand sky : ℚ) (comps : List Component) :
    (getBurrowChunks areaMin gpd sand sky comps).1 =
      (comps.filter fun c => decide (areaMin ≤ c.area) &&
        decide (gpd / 2 ≤ c.centroidDist) &&
        decide (c.meanColor ≤ chunkColorThresh sand sky) &&
        decide (2 < c.contour.length)).map (·.contour) ∧
    (getBurrowChunks areaMin gpd sand sky comps).2 =
      comps.filter fun c => decide (areaMin ≤ c.area) &&
        decide (gpd / 2 ≤ c.centroidDist) &&
        decide (chunkColorThresh sand sky < c.meanColor) := by
  induction comps with
  | nil => exact ⟨rfl, rfl⟩
  | cons c rest ih =>
    obtain ⟨ih1, ih2⟩ := ih
    by_cases h1 : c.area < areaMin
    · simp [getBurrowChunks, h1, List.filter_cons, not_le.mpr h1, ih1, ih2]
    · by_cases h2 : c.centroidDist < gpd / 2
      · simp [getBurrowChunks, h1, h2, List.filter_cons, not_le.mpr h2, not_lt.mp h1, ih1, ih2]
      · by_cases h3 : c.meanColor > chunkColorThresh sand sky
        · simp [getBurrowChunks, h1, h2, h3, List.filter_cons, not_le.mpr h3,
            not_lt.mp h1, not_lt.mp h2, ih1, ih2]
        · by_cases h4 : 2 < c.contour.length
          · simp [getBurrowChunks, h1, h2, h3, h4, List.filter_cons, not_lt.mp h1,
              not_lt.mp h2, not_lt.mp h3, ih1, ih2]
          · simp [getBurrowChunks, h1, h2, h3, h4, List.filter_cons, not_lt.mp h1,
              not_lt.mp h2, not_lt.mp h3, ih1, ih2]

/-- C8, code evaluated at the failing input.  With areaMin = 1 the mask at
the initial threshold 10 has two components of area 6, so its largest
connected cluster (area 6) is already below 10 * areaMin and the claimed
loop would stop there; but the code takes the maximum of label-weighted
areas [1 * 6, 2 * 6] = [6, 12], sees 12 > 10 and lowers the threshold,
returning the mask produced at threshold 9. -/

theorem initial_mask_weighted_area_bug :
    initThresh 10 10 = 10 ∧
    listMax ((bugLabel (initMaskAt (fun _ _ => true) bugFrame 10)).map
      (fun c => c.area)) = some 6 ∧
    ((6 : ℚ) < 10 * 1) ∧
    (initLoop bugLabel (fun _ _ => true) bugFrame 1 2 10).map Prod.snd = some 9 := by
  have hm10 : initMaskAt (fun _ _ => true) bugFrame 10 0 0 = true := by
    norm_num [initMaskAt, bugFrame]
  have hm9 : initMaskAt (fun _ _ => true) bugFrame (10 - 1) 0 0 = false := by
    norm_num [initMaskAt, bugFrame]
  have hl10 : bugLabel (initMaskAt (fun _ _ => true) bugFrame 10) =
      [⟨6, 0, []⟩, ⟨6, 0, []⟩] := by
    unfold bugLabel
    rw [hm10]
    simp
  have hl9 : bugLabel (initMaskAt (fun _ _ => true) bugFrame (10 - 1)) = [⟨6, 0, []⟩] := by
    unfold bugLabel
    rw [hm9]
    simp
  refine ⟨by norm_num [initThresh], ?_, by norm_num, ?_⟩
  · rw [hl10]
    simp [listMax]
  · rw [show (2 : ℕ) = 1 + 1 from rfl, initLoop]
    simp only [hl10, labelAreasCode, labelAreasFrom, listMax]
    rw [if_pos (by norm_num)]
    rw [initLoop]
    simp only [hl9, labelAreasCode, labelAreasFrom, listMax]
    rw [if_neg (by norm_num)]
    norm_num [Option.map_some]

/-- C10: called with an empty chunk list, connect_burrow_chunks returns
the empty list immediately: no burrows, and no outline painted into the
burrow mask. -/

theorem connect_burrow_chunks_empty {α : Type} [Inhabited α] (ops : GeomOps α) :
    connectBurrowChunks ops ([] : List α) = ([], []) := rfl

/-! ## List index helpers -/

lemma getD_set_self {β : Type} (l : List β) (i : ℕ) (a d : β) (h : i < l.length) :
    (l.set i a).getD i d = a := by
  induction l generalizing i with
  | nil => simp at h
  | cons b t ih =>
    cases i with
    | zero => rfl
    | succ j => exact ih j (by simpa using h)

lemma getD_set_ne {β : Type} (l : List β) (i j : ℕ) (a d : β) (h : j ≠ i) :
    (l.set i a).getD j d = l.getD j d := by
  induction l generalizing i j with
  | nil => simp
  | cons b t ih =>
    cases i with
    | zero =>
      cases j with
      | zero => exact absurd rfl h
      | succ j2 => rfl
    | succ i2 =>
      cases j with
      | zero => rfl
      | succ j2 => exact ih i2 j2 fun hq => h (by rw [hq])

lemma getD_map_lt {β : Type} (f : β → β) (l : List β) (k : ℕ) (d : β)
    (h : k < l.length) : (l.map f).getD k d = f (l.getD k d) := by
  induction l generalizing k with
  | nil => simp at h
  | cons b t ih =>
    cases k with
    | zero => rfl
    | succ j => exact ih j (by simpa using h)

lemma getD_mem_of_lt {β : Type} (l : List β) (k : ℕ) (d : β) (h : k < l.length) :
    l.getD k d ∈ l := by
  induction l generalizing k with
  | nil => simp at h
  | cons b t ih =>
    cases k with
    | zero => exact List.mem_cons_self b t
    | succ j => exact List.mem_cons_of_mem b (ih j (by simpa using h))

lemma mem_eraseIdx_of_ne {a : ℕ} {l : List ℕ} {i : ℕ} (ha : a ∈ l)
    (hne : a ≠ l.getD i 0) : a ∈ l.eraseIdx i := by
  induction l generalizing i with
  | nil => simp at ha
  | cons b t ih =>
    cases i with
    | zero =>
      rcases List.mem_cons.mp ha with rfl | hmem
      · exact absurd rfl hne
      · simpa using hmem
    | succ j =>
      rcases List.mem_cons.mp ha with rfl | hmem
      · simp
      · simpa using Or.inr (ih hmem hne)

lemma not_mem_eraseIdx_self {l : List ℕ} (hnd : l.Nodup) {i : ℕ}
    (hi : i < l.length) : l.getD i 0 ∉ l.eraseIdx i := by
  induction l generalizing i with
  | nil => simp at hi
  | cons b t ih =>
    cases i with
    | zero =>
      exact (List.nodup_cons.mp hnd).1
    | succ j =>
      have hj : j < t.length := by simpa using hi
      have htmem : t.getD j 0 ∈ t := getD_mem_of_lt t j 0 hj
      intro hmem
      have hmem2 : t.getD j 0 ∈ b :: t.eraseIdx j := hmem
      rcases List.mem_cons.mp hmem2 with heq | hmem3
      · exact (List.nodup_cons.mp hnd).1 (heq ▸ htmem)
      · exact ih (List.nodup_cons.mp hnd).2 hj hmem3

/-! ## argmin bounds -/

lemma argminL_lt {β : Type} [LinearOrder β] [Inhabited β] :
    ∀ l : List β, l ≠ [] → argminL l < l.length
  | [], h => absurd rfl h
  | [_], _ => by simp [argminL]
  | a :: b :: rest, _ => by
    have ih := argminL_lt (b :: rest) (by simp)
    show (if a ≤ (b :: rest).getD (argminL (b :: rest)) default then 0
      else argminL (b :: rest) + 1) < (a :: b :: rest).length
    by_cases hle : a ≤ (b :: rest).getD (argminL (b :: rest)) default
    · rw [if_pos hle]
      simp
    · rw [if_neg hle]
      simpa using Nat.succ_lt_succ ih

/-! ## The merge loop removes exactly one disconnected chunk per
iteration (generic over the outline type and the distance matrix) -/

lemma flat_length (bd : ℕ → ℕ → WithTop ℚ) (disc conn : List ℕ) :
    (disc.flatMap fun c1 => conn.map fun c2 => bd c1 c2).length =
      disc.length * conn.length := by
  induction disc with
  | nil => simp
  | cons c t ih => simp [ih, Nat.succ_mul, Nat.add_comm]

lemma mergeStep_k1_lt {α : Type} [Inhabited α]
    (bd : ℕ → ℕ → WithTop ℚ) (st : RState α) (hc : st.connected ≠ [])
    (hd : st.disconnected ≠ []) :
    (argminL (st.disconnected.flatMap fun c1 => st.connected.map fun c2 => bd c1 c2)) /
      st.connected.length < st.disconnected.length := by
  have hcpos : 0 < st.connected.length := List.length_pos.mpr hc
  have hflat : (st.disconnected.flatMap fun c1 => st.connected.map fun c2 => bd c1 c2) ≠ [] := by
    intro hnil
    have h0 : st.disconnected.length * st.connected.length = 0 := by
      have hfl := flat_length bd st.disconnected st.connected
      rw [hnil] at hfl
      simpa using hfl.symm
    rcases Nat.mul_eq_zero.mp h0 with h1 | h1
    · exact hd (List.length_eq_zero.mp h1)
    · exact hc (List.length_eq_zero.mp h1)
  have hlt := argminL_lt _ hflat
  rw [flat_length] at hlt
  have hlt2 : argminL (st.disconnected.flatMap fun c1 => st.connected.map fun c2 => bd c1 c2) <
      st.connected.length * st.disconnected.length := by
    rw [Nat.mul_comm]
    exact hlt
  exact Nat.div_lt_of_lt_mul hlt2

lemma mergeStep_shrinks {α : Type} [Inhabited α] (ops : GeomOps α)
    (bd : ℕ → ℕ → WithTop ℚ) (st : RState α) (hc : st.connected ≠ [])
    (hd : st.disconnected ≠ []) :
    (mergeStep ops bd st).disconnected.length = st.disconnected.length - 1 ∧
    (mergeStep ops bd st).disconnected.Sublist st.disconnected ∧
    (mergeStep ops bd st).connected ≠ [] := by
  have hk1 := mergeStep_k1_lt bd st hc hd
  refine ⟨?_, ?_, ?_⟩
  · show (st.disconnected.eraseIdx _).length = _
    rw [List.length_eraseIdx]
    simp [hk1]
  · exact List.eraseIdx_sublist _ _
  · simp [mergeStep]

/-! ## Characterisation of the classification phase -/

lemma enumFrom_getD {β : Type} [Inhabited β] :
    ∀ (l : List β) (i k : ℕ), k < l.length →
      (List.enumFrom i l).getD k (0, default) = (i + k, l.getD k default)
  | [], _, k, h => by simp at h
  | b :: t, i, 0, _ => by simp [List.enumFrom]
  | b :: t, i, k + 1, h => by
    have ih := enumFrom_getD t (i + 1) k (by simpa using h)
    show (List.enumFrom (i + 1) t).getD k (0, default) = _
    rw [ih]
    exact Prod.ext (by omega) rfl

lemma filter_singleton_pos {p : ℕ → Bool} {m : ℕ} (h : p m = true) :
    List.filter p [m] = [m] := by
  rw [List.filter_cons, if_pos h, List.filter_nil]

lemma filter_singleton_neg {p : ℕ → Bool} {m : ℕ} (h : p m = false) :
    List.filter p [m] = [] := by
  rw [List.filter_cons, if_neg (by simp [h]), List.filter_nil]

lemma classifyPhase_eq_fold {α : Type} [Inhabited α] (ops : GeomOps α)
    (chunks : List α) : classifyPhase ops chunks = classifyFold ops chunks chunks.length :=
  rfl

lemma initState_slotAt {α : Type} [Inhabited α] (chunks : List α) (k : ℕ)
    (h : k < chunks.length) :
    slotAt (initState chunks) k = (k, chunks.getD k default) := by
  have := enumFrom_getD chunks 0 k h
  simpa [slotAt, initState, List.enum] using this

lemma classifyFold_spec {α : Type} [Inhabited α] (ops : GeomOps α) (chunks : List α) :
    ∀ m, m ≤ chunks.length →
    (classifyFold ops chunks m).slots.length = chunks.length ∧
    chunks.length ≤ (classifyFold ops chunks m).nextId ∧
    (classifyFold ops chunks m).connected = (List.range m).filter
      (fun k => decide ((((groundDists ops chunks).getD k 0 : ℚ) : WithTop ℚ) <
        rowMin ops chunks k)) ∧
    (classifyFold ops chunks m).disconnected = (List.range m).filter
      (fun k => !decide ((((groundDists ops chunks).getD k 0 : ℚ) : WithTop ℚ) <
        rowMin ops chunks k)) ∧
    ∀ k, k < chunks.length →
      (m ≤ k → slotAt (classifyFold ops chunks m) k = (k, chunks.getD k default)) ∧
      (k < m → (((groundDists ops chunks).getD k 0 : ℚ) : WithTop ℚ) < rowMin ops chunks k →
        1 < (groundDists ops chunks).getD k 0 →
        ∃ j, chunks.length ≤ j ∧ j < (classifyFold ops chunks m).nextId ∧
          slotAt (classifyFold ops chunks m) k = (j, ops.bridge (chunks.getD k default) none) ∧
          ops.bridge (chunks.getD k default) none ∈ (classifyFold ops chunks m).painted) ∧
      (k < m → (((groundDists ops chunks).getD k 0 : ℚ) : WithTop ℚ) < rowMin ops chunks k →
        (groundDists ops chunks).getD k 0 ≤ 1 →
        slotAt (classifyFold ops chunks m) k = (k, chunks.getD k default)) ∧
      (k < m → ¬ ((((groundDists ops chunks).getD k 0 : ℚ) : WithTop ℚ) < rowMin ops chunks k) →
        slotAt (classifyFold ops chunks m) k = (k, chunks.getD k default)) := by
  intro m
  induction m with
  | zero =>
    intro _
    refine ⟨by simp [classifyFold, initState], by simp [classifyFold, initState], by
      simp [classifyFold, initState], by simp [classifyFold, initState], ?_⟩
    intro k hk
    exact ⟨fun _ => initState_slotAt chunks k hk, fun h => by omega, fun h => by omega,
      fun h => by omega⟩
  | succ m ih =>
    intro hm1
    have hm : m ≤ chunks.length := Nat.le_of_succ_le hm1
    have hmn : m < chunks.length := hm1
    obtain ⟨ihlen, ihnid, ihconn, ihdisc, ihslot⟩ := ih hm
    have hstep : classifyFold ops chunks (m + 1) =
        classifyStep ops (groundDists ops chunks) (rowMin ops chunks)
          (classifyFold ops chunks m) m := by
      unfold classifyFold
      rw [List.range_succ, List.foldl_append]
      rfl
    have hslotm : slotAt (classifyFold ops chunks m) m = (m, chunks.getD m default) :=
      (ihslot m hmn).1 le_rfl
    by_cases hcond : (((groundDists ops chunks).getD m 0 : ℚ) : WithTop ℚ) <
        rowMin ops chunks m
    · by_cases hgt : 1 < (groundDists ops chunks).getD m 0
      · -- bridged towards the ground
        have hstep2 : classifyFold ops chunks (m + 1) =
            { classifyFold ops chunks m with
              slots := (classifyFold ops chunks m).slots.set m
                ((classifyFold ops chunks m).nextId,
                  ops.bridge (chunks.getD m default) none)
              nextId := (classifyFold ops chunks m).nextId + 1
              painted := (classifyFold ops chunks m).painted ++
                [ops.bridge (chunks.getD m default) none]
              connected := (classifyFold ops chunks m).connected ++ [m] } := by
          rw [hstep]
          unfold classifyStep
          rw [if_pos hcond, if_pos hgt, hslotm]
        refine ⟨by simp [hstep2, ihlen], by simp [hstep2]; omega, ?_, ?_, ?_⟩
        · rw [hstep2, List.range_succ, List.filter_append, ihconn,
            filter_singleton_pos (decide_eq_true hcond)]
        · rw [hstep2, List.range_succ, List.filter_append, ihdisc,
            filter_singleton_neg (by rw [decide_eq_true hcond]; rfl), List.append_nil]
        · intro k hk
          by_cases hkm : k = m
          · subst hkm
            refine ⟨fun h => by omega, fun _ _ _ => ?_, fun _ _ hle => by
              exact absurd hgt (not_lt.mpr hle), fun _ hnc => absurd hcond hnc⟩
            refine ⟨(classifyFold ops chunks k).nextId, ihnid, by simp [hstep2], ?_, ?_⟩
            · rw [hstep2]
              show ((classifyFold ops chunks k).slots.set k _).getD k (0, default) = _
              rw [getD_set_self _ _ _ _ (by rw [ihlen]; exact hk)]
            · simp [hstep2]
          · have hslots : slotAt (classifyFold ops chunks (m + 1)) k =
                slotAt (classifyFold ops chunks m) k := by
              rw [hstep2]
              show ((classifyFold ops chunks m).slots.set m _).getD k (0, default) = _
              rw [getD_set_ne _ _ _ _ _ hkm]
              rfl
            refine ⟨fun h => by rw [hslots]; exact (ihslot k hk).1 (by omega),
              fun h hc hg => ?_, fun h hc hg => by
                rw [hslots]; exact (ihslot k hk).2.2.1 (by omega) hc hg,
              fun h hnc => by rw [hslots]; exact (ihslot k hk).2.2.2 (by omega) hnc⟩
            obtain ⟨j, hj1, hj2, hj3, hj4⟩ := (ihslot k hk).2.1 (by omega) hc hg
            refine ⟨j, hj1, by simp [hstep2]; omega, by rw [hslots]; exact hj3, ?_⟩
            rw [hstep2]
            exact List.mem_append_left _ hj4
      · -- connected without bridging
        have hstep2 : classifyFold ops chunks (m + 1) =
            { classifyFold ops chunks m with
              connected := (classifyFold ops chunks m).connected ++ [m] } := by
          rw [hstep]
          unfold classifyStep
          rw [if_pos hcond, if_neg hgt]
        refine ⟨by simp [hstep2, ihlen], by simp [hstep2, ihnid], ?_, ?_, ?_⟩
        · rw [hstep2, List.range_succ, List.filter_append, ihconn,
            filter_singleton_pos (decide_eq_true hcond)]
        · rw [hstep2, List.range_succ, List.filter_append, ihdisc,
            filter_singleton_neg (by rw [decide_eq_true hcond]; rfl), List.append_nil]
        · intro k hk
          have hslots : slotAt (classifyFold ops chunks (m + 1)) k =
              slotAt (classifyFold ops chunks m) k := by rw [hstep2]; rfl
          by_cases hkm : k = m
          · subst hkm
            exact ⟨fun h => by omega, fun _ _ hg => absurd hg hgt,
              fun _ _ _ => by rw [hslots]; exact hslotm,
              fun _ hnc => absurd hcond hnc⟩
          · refine ⟨fun h => by rw [hslots]; exact (ihslot k hk).1 (by omega),
              fun h hc hg => ?_, fun h hc hg => by
                rw [hslots]; exact (ihslot k hk).2.2.1 (by omega) hc hg,
              fun h hnc => by rw [hslots]; exact (ihslot k hk).2.2.2 (by omega) hnc⟩
            obtain ⟨j, hj1, hj2, hj3, hj4⟩ := (ihslot k hk).2.1 (by omega) hc hg
            exact ⟨j, hj1, by simpa [hstep2] using hj2, by rw [hslots]; exact hj3,
              by simpa [hstep2] using hj4⟩
    · -- disconnected
      have hstep2 : classifyFold ops chunks (m + 1) =
          { classifyFold ops chunks m with
            disconnected := (classifyFold ops chunks m).disconnected ++ [m] } := by
        rw [hstep]
        unfold classifyStep
        rw [if_neg hcond]
      refine ⟨by simp [hstep2, ihlen], by simp [hstep2, ihnid], ?_, ?_, ?_⟩
      · rw [hstep2, List.range_succ, List.filter_append, ihconn,
          filter_singleton_neg (decide_eq_false hcond), List.append_nil]
      · rw [hstep2, List.range_succ, List.filter_append, ihdisc,
          filter_singleton_pos (by rw [decide_eq_false hcond]; rfl)]
      · intro k hk
        have hslots : slotAt (classifyFold ops chunks (m + 1)) k =
            slotAt (classifyFold ops chunks m) k := by rw [hstep2]; rfl
        by_cases hkm : k = m
        · subst hkm
          exact ⟨fun h => by omega, fun _ hc => absurd hc hcond,
            fun _ hc => absurd hc hcond,
            fun _ _ => by rw [hslots]; exact hslotm⟩
        · refine ⟨fun h => by rw [hslots]; exact (ihslot k hk).1 (by omega),
            fun h hc hg => ?_, fun h hc hg => by
              rw [hslots]; exact (ihslot k hk).2.2.1 (by omega) hc hg,
            fun h hnc => by rw [hslots]; exact (ihslot k hk).2.2.2 (by omega) hnc⟩
          obtain ⟨j, hj1, hj2, hj3, hj4⟩ := (ihslot k hk).2.1 (by omega) hc hg
          exact ⟨j, hj1, by simpa [hstep2] using hj2, by rw [hslots]; exact hj3,
            by simpa [hstep2] using hj4⟩

/-! ## Merge-loop termination -/

lemma force_connected_ne_nil {α : Type} [Inhabited α] (ops : GeomOps α)
    (gd : List ℚ) (st : RState α) :
    (forcePhase ops gd st).connected ≠ [] := by
  unfold forcePhase
  by_cases he : st.connected.isEmpty
  · rw [if_pos he]
    simp
  · rw [if_neg he]
    simpa [List.isEmpty_iff] using he

lemma force_disconnected_shorter {α : Type} [Inhabited α] (ops : GeomOps α)
    (gd : List ℚ) (st : RState α) :
    (forcePhase ops gd st).disconnected.length ≤ st.disconnected.length := by
  unfold forcePhase
  by_cases he : st.connected.isEmpty
  · rw [if_pos he]
    exact (List.erase_sublist _ _).length_le
  · rw [if_neg he]

lemma mergeLoop_of_disc_nil {α : Type} [Inhabited α] (ops : GeomOps α)
    (bd : ℕ → ℕ → WithTop ℚ) (f : ℕ) (st : RState α)
    (h : st.disconnected = []) : mergeLoop ops bd f st = st := by
  cases f with
  | zero => rfl
  | succ g =>
    unfold mergeLoop
    rw [if_pos (by simp [h])]

lemma mergeLoop_reaches_empty {α : Type} [Inhabited α] (ops : GeomOps α)
    (bd : ℕ → ℕ → WithTop ℚ) :
    ∀ (f : ℕ) (st : RState α), st.connected ≠ [] → st.disconnected.length ≤ f →
      (mergeLoop ops bd f st).disconnected = [] := by
  intro f
  induction f with
  | zero =>
    intro st _ hlen
    have : st.disconnected = [] := List.length_eq_zero.mp (Nat.le_zero.mp hlen)
    rw [mergeLoop_of_disc_nil ops bd 0 st this]
    exact this
  | succ g ih =>
    intro st hc hlen
    by_cases he : st.disconnected.isEmpty
    · rw [mergeLoop_of_disc_nil ops bd _ st (List.isEmpty_iff.mp he)]
      exact List.isEmpty_iff.mp he
    · have hd : st.disconnected ≠ [] := by simpa [List.isEmpty_iff] using he
      have hstep : mergeLoop ops bd (g + 1) st = mergeLoop ops bd g (mergeStep ops bd st) := by
        simp only [mergeLoop]
        rw [if_neg he]
      obtain ⟨hlen2, _, hc2⟩ := mergeStep_shrinks ops bd st hc hd
      rw [hstep]
      refine ih (mergeStep ops bd st) hc2 ?_
      rw [hlen2]
      have : 1 ≤ st.disconnected.length := List.length_pos.mpr hd
      omega

lemma mergeLoop_stabilizes {α : Type} [Inhabited α] (ops : GeomOps α)
    (bd : ℕ → ℕ → WithTop ℚ) :
    ∀ (f g : ℕ) (st : RState α), st.connected ≠ [] → st.disconnected.length ≤ f →
      f ≤ g → mergeLoop ops bd g st = mergeLoop ops bd f st := by
  intro f
  induction f with
  | zero =>
    intro g st _ hlen _
    have hnil : st.disconnected = [] := List.length_eq_zero.mp (Nat.le_zero.mp hlen)
    rw [mergeLoop_of_disc_nil ops bd g st hnil, mergeLoop_of_disc_nil ops bd 0 st hnil]
  | succ f2 ih =>
    intro g st hc hlen hfg
    cases g with
    | zero => omega
    | succ g2 =>
      by_cases he : st.disconnected.isEmpty
      · rw [mergeLoop_of_disc_nil ops bd _ st (List.isEmpty_iff.mp he),
          mergeLoop_of_disc_nil ops bd _ st (List.isEmpty_iff.mp he)]
      · have hd : st.disconnected ≠ [] := by simpa [List.isEmpty_iff] using he
        have hstep1 : mergeLoop ops bd (g2 + 1) st = mergeLoop ops bd g2 (mergeStep ops bd st) := by
          simp only [mergeLoop]
          rw [if_neg he]
        have hstep2 : mergeLoop ops bd (f2 + 1) st = mergeLoop ops bd f2 (mergeStep ops bd st) := by
          simp only [mergeLoop]
          rw [if_neg he]
        obtain ⟨hlen2, _, hc2⟩ := mergeStep_shrinks ops bd st hc hd
        rw [hstep1, hstep2]
        refine ih g2 (mergeStep ops bd st) hc2 ?_ (by omega)
        rw [hlen2]
        have : 1 ≤ st.disconnected.length := List.length_pos.mpr hd
        omega

/-- C4: Termination of the merge loop.  For a nonempty chunk list (and any
distance matrix), the disconnected set after classification and forced
connection has at most as many entries as there are chunks; every
iteration of the merge loop on a state with nonempty connected and
disconnected lists removes exactly one element from the disconnected set
and never adds to it; running the loop with fuel equal to the disconnected
count empties the disconnected set; and any larger fuel gives the same
state, so the loop terminates in at most N merge iterations. -/

theorem merge_loop_terminates {α : Type} [Inhabited α] (ops : GeomOps α)
    (bd : ℕ → ℕ → WithTop ℚ) (chunks : List α) :
    (forcePhase ops (groundDists ops chunks) (classifyPhase ops chunks)).disconnected.length ≤
      chunks.length ∧
    (∀ st : RState α, st.connected ≠ [] → st.disconnected ≠ [] →
      (mergeStep ops bd st).disconnected.length = st.disconnected.length - 1 ∧
      (mergeStep ops bd st).disconnected.Sublist st.disconnected) ∧
    (mergeLoop ops bd
      (forcePhase ops (groundDists ops chunks) (classifyPhase ops chunks)).disconnected.length
      (forcePhase ops (groundDists ops chunks) (classifyPhase ops chunks))).disconnected = [] ∧
    ∀ f,
      (forcePhase ops (groundDists ops chunks) (classifyPhase ops chunks)).disconnected.length ≤ f →
      mergeLoop ops bd f (forcePhase ops (groundDists ops chunks) (classifyPhase ops chunks)) =
        mergeLoop ops bd
          (forcePhase ops (groundDists ops chunks) (classifyPhase ops chunks)).disconnected.length
          (forcePhase ops (groundDists ops chunks) (classifyPhase ops chunks)) := by
  have hforce := force_connected_ne_nil ops (groundDists ops chunks) (classifyPhase ops chunks)
  obtain ⟨_, _, _, hdisc, _⟩ := classifyFold_spec ops chunks chunks.length le_rfl
  have hlen : (classifyPhase ops chunks).disconnected.length ≤ chunks.length := by
    rw [classifyPhase_eq_fold, hdisc]
    calc (List.filter _ (List.range chunks.length)).length
        ≤ (List.range chunks.length).length := List.length_filter_le _ _
      _ = chunks.length := List.length_range _
  refine ⟨le_trans (force_disconnected_shorter ops (groundDists ops chunks) _) hlen,
    fun st hc hd => ?_, ?_, fun f hf => ?_⟩
  · obtain ⟨h1, h2, _⟩ := mergeStep_shrinks ops bd st hc hd
    exact ⟨h1, h2⟩
  · exact mergeLoop_reaches_empty ops bd _ _ hforce le_rfl
  · exact mergeLoop_stabilizes ops bd _ f _ hforce le_rfl hf

/-- C3, counterexample: a single chunk at ground distance exactly 1 (which
is nonzero) is classified ground-connected, yet connect_burrow_chunks
leaves its outline unchanged and paints nothing, because the code bridges
only chunks whose ground distance exceeds 1. -/

theorem direct_classification_no_bridge_below_one :
    (groundDists (geoOps (fun _ => 1) (fun _ _ => 5)) [Geo.base 0]).getD 0 0 = 1 ∧
    ((1 : ℚ) ≠ 0) ∧
    0 ∈ (classifyPhase (geoOps (fun _ => 1) (fun _ _ => 5)) [Geo.base 0]).connected ∧
    slotAt (classifyPhase (geoOps (fun _ => 1) (fun _ _ => 5)) [Geo.base 0]) 0 =
      (0, Geo.base 0) ∧
    Geo.base 0 ≠ Geo.bridged (Geo.base 0) none ∧
    (classifyPhase (geoOps (fun _ => 1) (fun _ _ => 5)) [Geo.base 0]).painted = [] := by
  refine ⟨rfl, one_ne_zero, ?_, rfl, fun h => Geo.noConfusion h, rfl⟩
  exact List.mem_singleton.mpr rfl

/-- C3, amended: in connect_burrow_chunks a chunk k is classified
ground-connected exactly when its ground distance is strictly below the
minimum of its distance-matrix row (self-distance infinity); a classified
chunk whose ground distance exceeds 1 has its outline replaced by the
bridged outline, which is painted into the mask, while a classified chunk
at ground distance at most 1 — not merely at zero distance — is left
as-is; an unclassified chunk joins the disconnected set unchanged. -/

theorem direct_classification_threshold {α : Type} [Inhabited α] (ops : GeomOps α)
    (chunks : List α) (k : ℕ) (hk : k < chunks.length) :
    (k ∈ (classifyPhase ops chunks).connected ↔
      (((groundDists ops chunks).getD k 0 : ℚ) : WithTop ℚ) < rowMin ops chunks k) ∧
    ((((groundDists ops chunks).getD k 0 : ℚ) : WithTop ℚ) < rowMin ops chunks k →
      (1 < (groundDists ops chunks).getD k 0 →
        (slotAt (classifyPhase ops chunks) k).2 = ops.bridge (chunks.getD k default) none ∧
        ops.bridge (chunks.getD k default) none ∈ (classifyPhase ops chunks).painted) ∧
      ((groundDists ops chunks).getD k 0 ≤ 1 →
        slotAt (classifyPhase ops chunks) k = (k, chunks.getD k default))) ∧
    (¬ ((((groundDists ops chunks).getD k 0 : ℚ) : WithTop ℚ) < rowMin ops chunks k) →
      k ∈ (classifyPhase ops chunks).disconnected ∧
      slotAt (classifyPhase ops chunks) k = (k, chunks.getD k default)) := by
  obtain ⟨_, _, hconn, hdisc, hslot⟩ := classifyFold_spec ops chunks chunks.length le_rfl
  rw [classifyPhase_eq_fold]
  refine ⟨?_, fun hc => ⟨fun hg => ?_, fun hg => ?_⟩, fun hnc => ⟨?_, ?_⟩⟩
  · rw [hconn, List.mem_filter]
    constructor
    · intro h
      simpa using h.2
    · intro h
      exact ⟨List.mem_range.mpr hk, by simpa using h⟩
  · obtain ⟨j, _, _, hj3, hj4⟩ := (hslot k hk).2.1 hk hc hg
    exact ⟨by rw [hj3], hj4⟩
  · exact (hslot k hk).2.2.1 hk hc hg
  · rw [hdisc, List.mem_filter]
    exact ⟨List.mem_range.mpr hk, by simpa using hnc⟩
  · exact (hslot k hk).2.2.2 hk hnc

/-- Closed witness for direct_classification_threshold: a single chunk at
ground distance 3 is classified (its row minimum is infinity) and its slot
holds the bridged outline. -/

theorem direct_classification_threshold_witness :
    0 < ([Geo.base 0] : List Geo).length ∧
    (slotAt (classifyPhase (geoOps (fun _ => 3) (fun _ _ => 5)) [Geo.base 0]) 0).2 =
      (geoOps (fun _ => 3) (fun _ _ => 5)).bridge
        (([Geo.base 0] : List Geo).getD 0 default) none := by
  refine ⟨by decide, ?_⟩
  exact (((direct_classification_threshold (geoOps (fun _ => 3) (fun _ _ => 5))
    [Geo.base 0] 0 (by decide)).2.1 (by decide)).1 (show (1 : ℚ) < 3 by norm_num)).1

/-! ## Ground-connectivity invariant of the resolver -/

lemma getD_map2_lt {β γ : Type} (f : β → γ) (l : List β) (k : ℕ) (d : β) (d2 : γ)
    (h : k < l.length) : (l.map f).getD k d2 = f (l.getD k d) := by
  induction l generalizing k with
  | nil => simp at h
  | cons b t ih =>
    cases k with
    | zero => rfl
    | succ j => exact ih j (by simpa using h)

lemma range_getD (n k : ℕ) (h : k < n) : (List.range n).getD k 0 = k := by
  induction n with
  | zero => omega
  | succ m ih =>
    rcases Nat.lt_or_ge k m with hk | hk
    · rw [List.range_succ]
      have : k < (List.range m).length := by simpa using hk
      calc ((List.range m) ++ [m]).getD k 0 = (List.range m).getD k 0 := by
            rw [List.getD_append _ _ _ _ this]
        _ = k := ih hk
    · have hkm : k = m := by omega
      subst hkm
      rw [List.range_succ]
      have hlen : (List.range k).length = k := List.length_range k
      calc ((List.range k) ++ [k]).getD k 0 = [k].getD (k - (List.range k).length) 0 := by
            rw [List.getD_append_right _ _ _ _ (by omega)]
        _ = k := by rw [hlen]; simp

lemma mem_of_uniqueByIdAux {α : Type} :
    ∀ (seen : List ℕ) (l : List (ℕ × α)) (s : ℕ × α), s ∈ uniqueByIdAux seen l → s ∈ l := by
  intro seen l
  induction l generalizing seen with
  | nil => intro s h; simp [uniqueByIdAux] at h
  | cons a t ih =>
    intro s h
    unfold uniqueByIdAux at h
    by_cases hm : a.1 ∈ seen
    · rw [if_pos hm] at h
      exact List.mem_cons_of_mem a (ih seen s h)
    · rw [if_neg hm] at h
      rcases List.mem_cons.mp h with rfl | h2
      · exact List.mem_cons_self _ _
      · exact List.mem_cons_of_mem a (ih (a.1 :: seen) s h2)

lemma mem_getD_index {β : Type} :
    ∀ (l : List β) (s : β), s ∈ l → ∀ d, ∃ j, j < l.length ∧ l.getD j d = s := by
  intro l
  induction l with
  | nil => intro s h; simp at h
  | cons a t ih =>
    intro s h d
    rcases List.mem_cons.mp h with rfl | h2
    · exact ⟨0, by simp, rfl⟩
    · obtain ⟨j, hj1, hj2⟩ := ih s h2 d
      exact ⟨j + 1, by simpa using hj1, hj2⟩

lemma inv_mergeStep (gdf : Geo → ℚ) (df : Geo → Geo → ℚ) (bd : ℕ → ℕ → WithTop ℚ)
    (n : ℕ) (S : List ℕ) (st : RState Geo) (hinv : Inv n S st)
    (hc : st.connected ≠ []) (hd : st.disconnected ≠ []) :
    Inv n S (mergeStep (geoOps gdf df) bd st) := by
  obtain ⟨hlen, hnid, hids, hidlow, hdiscs, hconns, hnd, hdisj, hcover⟩ := hinv
  have hk1 := mergeStep_k1_lt bd st hc hd
  have hcpos : 0 < st.connected.length := List.length_pos.mpr hc
  set flat := st.disconnected.flatMap fun c1 => st.connected.map fun c2 => bd c1 c2 with hflat
  set k1 := argminL flat / st.connected.length with hk1def
  set k2 := argminL flat % st.connected.length with hk2def
  set c1 := st.disconnected.getD k1 0 with hc1def
  set c2 := st.connected.getD k2 0 with hc2def
  have hk2 : k2 < st.connected.length := Nat.mod_lt _ hcpos
  have hc1mem : c1 ∈ st.disconnected := getD_mem_of_lt _ _ _ hk1
  have hc2mem : c2 ∈ st.connected := getD_mem_of_lt _ _ _ hk2
  obtain ⟨hc1n, hc1slot⟩ := hdiscs c1 hc1mem
  obtain ⟨hc2n, hc2g⟩ := hconns c2 hc2mem
  set strc := (slotAt st c2).2 with hstrc
  set enlarged := Geo.bridged (slotAt st c1).2 (some strc) with henl
  set outline := Geo.merged enlarged strc with hout
  set oldId := (slotAt st c2).1 with hoid
  have holdlt : oldId < st.nextId := hids c2 hc2n
  have hgout : grounded S outline = true := by
    rw [hout]
    show (grounded S enlarged || grounded S strc) = true
    rw [hc2g]
    exact Bool.or_true _
  have hstform : mergeStep (geoOps gdf df) bd st =
      { slots := (st.slots.set c1 (st.nextId, outline)).map
          fun s => if s.1 = oldId then (st.nextId, outline) else s
        nextId := st.nextId + 1
        connected := st.connected ++ [c1]
        disconnected := st.disconnected.eraseIdx k1
        painted := st.painted ++ [enlarged] } := rfl
  have hlen1 : (st.slots.set c1 (st.nextId, outline)).length = n := by
    rw [List.length_set]; exact hlen
  have hslotNew : ∀ j, j < n → slotAt (mergeStep (geoOps gdf df) bd st) j =
      (if (if j = c1 then ((st.nextId, outline) : ℕ × Geo) else slotAt st j).1 = oldId
        then ((st.nextId, outline) : ℕ × Geo)
        else if j = c1 then ((st.nextId, outline) : ℕ × Geo) else slotAt st j) := by
    intro j hj
    rw [hstform]
    show ((st.slots.set c1 (st.nextId, outline)).map
      fun s => if s.1 = oldId then (st.nextId, outline) else s).getD j (0, default) = _
    rw [getD_map2_lt _ _ _ (0, default) (0, default) (by rw [hlen1]; exact hj)]
    by_cases hjc : j = c1
    · subst hjc
      rw [getD_set_self _ _ _ _ (by rw [hlen]; exact hj), if_pos rfl]
    · rw [getD_set_ne _ _ _ _ _ hjc, if_neg hjc]
      rfl
  have hslotc1 : slotAt (mergeStep (geoOps gdf df) bd st) c1 = (st.nextId, outline) := by
    rw [hslotNew c1 hc1n, if_pos rfl]
    split <;> rfl
  have hslotOther : ∀ j, j < n → j ≠ c1 →
      slotAt (mergeStep (geoOps gdf df) bd st) j =
        (if (slotAt st j).1 = oldId then ((st.nextId, outline) : ℕ × Geo)
          else slotAt st j) := by
    intro j hj hjc
    rw [hslotNew j hj, if_neg hjc]
  have hnotc1 : c1 ∉ st.disconnected.eraseIdx k1 := not_mem_eraseIdx_self hnd hk1
  have hnidNew : (mergeStep (geoOps gdf df) bd st).nextId = st.nextId + 1 := rfl
  refine ⟨?_, by rw [hnidNew]; omega, ?_, ?_, ?_, ?_, ?_, ?_, ?_⟩
  · rw [hstform]
    show ((st.slots.set c1 (st.nextId, outline)).map _).length = n
    rw [List.length_map]
    exact hlen1
  · intro k hk
    by_cases hkc : k = c1
    · subst hkc
      rw [hslotc1, hnidNew]
      exact Nat.lt_succ_of_le (Nat.le_refl _)
    · rw [hslotOther k hk hkc, hnidNew]
      split
      · exact Nat.lt_succ_of_le (Nat.le_refl _)
      · exact Nat.lt_succ_of_lt (hids k hk)
  · intro k hk
    by_cases hkc : k = c1
    · subst hkc
      rw [hslotc1]
      intro hlow
      have h2 : st.nextId < n := hlow
      omega
    · rw [hslotOther k hk hkc]
      split
      · intro hlow
        have h2 : st.nextId < n := hlow
        omega
      · exact hidlow k hk
  · intro k hkmem
    have hksub : k ∈ st.disconnected := (List.eraseIdx_sublist _ _).mem hkmem
    obtain ⟨hkn, hkslot⟩ := hdiscs k hksub
    have hkc1 : k ≠ c1 := fun h => hnotc1 (h ▸ hkmem)
    have hne : (k : ℕ) ≠ oldId := by
      intro hko
      rcases Nat.lt_or_ge oldId n with ho | ho
      · have : oldId = c2 := hidlow c2 hc2n (by rw [← hoid]; exact ho)
        rw [this] at hko
        exact hdisj c2 hc2mem (hko ▸ hksub)
      · omega
    refine ⟨hkn, ?_⟩
    rw [hslotOther k hkn hkc1, hkslot]
    rw [if_neg (show ¬(((k : ℕ), Geo.base k).1 = oldId) from hne)]
  · intro k hkmem
    rcases List.mem_append.mp hkmem with hkold | hknew
    · have hkc1 : k ≠ c1 := fun h => hdisj k hkold (h ▸ hc1mem)
      obtain ⟨hkn, hkg⟩ := hconns k hkold
      refine ⟨hkn, ?_⟩
      rw [hslotOther k hkn hkc1]
      split
      · exact hgout
      · exact hkg
    · have hkc1 : k = c1 := List.mem_singleton.mp hknew
      subst hkc1
      refine ⟨hc1n, ?_⟩
      rw [hslotc1]
      exact hgout
  · rw [hstform]
    exact (List.eraseIdx_sublist _ _).nodup hnd
  · intro k hkmem
    rcases List.mem_append.mp hkmem with hkold | hknew
    · intro hkd
      exact hdisj k hkold ((List.eraseIdx_sublist _ _).mem hkd)
    · have hkc1 : k = c1 := List.mem_singleton.mp hknew
      subst hkc1
      exact hnotc1
  · intro k hk
    rcases hcover k hk with hkc | hkd
    · exact Or.inl (List.mem_append_left _ hkc)
    · by_cases hkc1 : k = c1
      · subst hkc1
        exact Or.inl (List.mem_append_right _ (List.mem_singleton.mpr rfl))
      · exact Or.inr (mem_eraseIdx_of_ne hkd (by rw [← hc1def]; exact hkc1))

lemma inv_mergeLoop (gdf : Geo → ℚ) (df : Geo → Geo → ℚ) (bd : ℕ → ℕ → WithTop ℚ)
    (n : ℕ) (S : List ℕ) :
    ∀ (f : ℕ) (st : RState Geo), Inv n S st → st.connected ≠ [] →
      Inv n S (mergeLoop (geoOps gdf df) bd f st) := by
  intro f
  induction f with
  | zero => intro st hinv _; exact hinv
  | succ g ih =>
    intro st hinv hc
    by_cases he : st.disconnected.isEmpty
    · rw [mergeLoop_of_disc_nil _ _ _ _ (List.isEmpty_iff.mp he)]
      exact hinv
    · have hd : st.disconnected ≠ [] := by simpa [List.isEmpty_iff] using he
      have hstep : mergeLoop (geoOps gdf df) bd (g + 1) st =
          mergeLoop (geoOps gdf df) bd g (mergeStep (geoOps gdf df) bd st) := by
        simp only [mergeLoop]
        rw [if_neg he]
      rw [hstep]
      exact ih _ (inv_mergeStep gdf df bd n S st hinv hc hd)
        (mergeStep_shrinks (geoOps gdf df) bd st hc hd).2.2

lemma baseChunks_getD (n k : ℕ) (h : k < n) :
    ((List.range n).map Geo.base).getD k default = Geo.base k := by
  rw [getD_map2_lt Geo.base (List.range n) k 0 default (by simpa using h)]
  rw [range_getD n k h]

lemma baseChunks_length (n : ℕ) : ((List.range n).map Geo.base).length = n := by
  rw [List.length_map, List.length_range]

lemma inv_classify (gdf : Geo → ℚ) (df : Geo → Geo → ℚ) (n : ℕ) :
    Inv n (classifyPhase (geoOps gdf df) ((List.range n).map Geo.base)).connected
      (classifyPhase (geoOps gdf df) ((List.range n).map Geo.base)) := by
  set ops := geoOps gdf df with hops
  set chunks := (List.range n).map Geo.base with hchunks
  have hlenc : chunks.length = n := baseChunks_length n
  obtain ⟨hlen, hnid, hconn, hdisc, hslot⟩ := classifyFold_spec ops chunks chunks.length le_rfl
  rw [classifyPhase_eq_fold]
  set F := classifyFold ops chunks chunks.length with hF
  have hsl : ∀ k, k < n →
      (∃ j, n ≤ j ∧ j < F.nextId ∧ slotAt F k = (j, ops.bridge (Geo.base k) none)) ∨
      slotAt F k = (k, Geo.base k) := by
    intro k hk
    have hk2 : k < chunks.length := by omega
    by_cases hcond : (((groundDists ops chunks).getD k 0 : ℚ) : WithTop ℚ) <
        rowMin ops chunks k
    · by_cases hgt : 1 < (groundDists ops chunks).getD k 0
      · obtain ⟨j, hj1, hj2, hj3, _⟩ := (hslot k hk2).2.1 hk2 hcond hgt
        exact Or.inl ⟨j, by omega, hj2, by rw [hj3, baseChunks_getD n k hk]⟩
      · exact Or.inr (by
          have := (hslot k hk2).2.2.1 hk2 hcond (not_lt.mp hgt)
          rw [this, baseChunks_getD n k hk])
    · exact Or.inr (by
        have := (hslot k hk2).2.2.2 hk2 hcond
        rw [this, baseChunks_getD n k hk])
  refine ⟨by omega, by omega, ?_, ?_, ?_, ?_, ?_, ?_, ?_⟩
  · intro k hk
    rcases hsl k hk with ⟨j, _, hj2, hj3⟩ | hb
    · rw [hj3]
      exact hj2
    · rw [hb]
      show k < F.nextId
      omega
  · intro k hk
    rcases hsl k hk with ⟨j, hj1, _, hj3⟩ | hb
    · rw [hj3]
      intro hlow
      show (j : ℕ) = k
      omega
    · rw [hb]
      intro _
      rfl
  · intro k hkmem
    rw [hdisc] at hkmem
    obtain ⟨hkr, hkp⟩ := List.mem_filter.mp hkmem
    have hk : k < n := by
      have := List.mem_range.mp hkr
      omega
    have hcond : ¬ ((((groundDists ops chunks).getD k 0 : ℚ) : WithTop ℚ) <
        rowMin ops chunks k) := by simpa using hkp
    refine ⟨hk, ?_⟩
    have := (hslot k (by omega)).2.2.2 (by omega) hcond
    rw [this, baseChunks_getD n k hk]
  · intro k hkmem
    rw [hconn] at hkmem
    obtain ⟨hkr, hkp⟩ := List.mem_filter.mp hkmem
    have hk : k < n := by
      have := List.mem_range.mp hkr
      omega
    have hcond : (((groundDists ops chunks).getD k 0 : ℚ) : WithTop ℚ) <
        rowMin ops chunks k := by simpa using hkp
    refine ⟨hk, ?_⟩
    by_cases hgt : 1 < (groundDists ops chunks).getD k 0
    · obtain ⟨j, _, _, hj3, _⟩ := (hslot k (by omega)).2.1 (by omega) hcond hgt
      rw [hj3]
      rfl
    · have hb := (hslot k (by omega)).2.2.1 (by omega) hcond (not_lt.mp hgt)
      rw [hb, baseChunks_getD n k hk]
      show (F.connected).contains k = true
      rw [List.contains_eq_any_beq]
      rw [List.any_eq_true]
      refine ⟨k, ?_, by simp⟩
      rw [hconn]
      exact hkmem
  · rw [hdisc]
    exact (List.nodup_range chunks.length).filter _
  · intro k hkc hkd
    rw [hconn] at hkc
    rw [hdisc] at hkd
    have h1 := (List.mem_filter.mp hkc).2
    have h2 := (List.mem_filter.mp hkd).2
    rw [h1] at h2
    exact Bool.noConfusion h2
  · intro k hk
    by_cases hcond : (((groundDists ops chunks).getD k 0 : ℚ) : WithTop ℚ) <
        rowMin ops chunks k
    · refine Or.inl ?_
      rw [hconn]
      exact List.mem_filter.mpr ⟨List.mem_range.mpr (by omega), by simpa using hcond⟩
    · refine Or.inr ?_
      rw [hdisc]
      exact List.mem_filter.mpr ⟨List.mem_range.mpr (by omega), by simpa using hcond⟩

lemma inv_after_force (gdf : Geo → ℚ) (df : Geo → Geo → ℚ) (n : ℕ) (hn : 0 < n) :
    Inv n (classifyPhase (geoOps gdf df) ((List.range n).map Geo.base)).connected
      (forcePhase (geoOps gdf df)
        (groundDists (geoOps gdf df) ((List.range n).map Geo.base))
        (classifyPhase (geoOps gdf df) ((List.range n).map Geo.base))) := by
  have hinv := inv_classify gdf df n
  set ops := geoOps gdf df with hops
  set chunks := (List.range n).map Geo.base with hchunks
  set st1 := classifyPhase ops chunks with hst1
  by_cases he : st1.connected.isEmpty
  · obtain ⟨hlen, hnid, hids, hidlow, hdiscs, hconns, hnd, hdisj, hcover⟩ := hinv
    set gd := groundDists ops chunks with hgd
    have hgdlen : gd.length = n := by
      rw [hgd]
      show (chunks.map ops.gdist).length = n
      rw [List.length_map, baseChunks_length n]
    have hgdne : gd ≠ [] := by
      intro hnil
      rw [hnil] at hgdlen
      simp at hgdlen
      omega
    set k := argminL gd with hkdef
    have hkn : k < n := by
      have := argminL_lt gd hgdne
      omega
    have hkdisc : k ∈ st1.disconnected := by
      rcases hcover k hkn with hkc | hkd
      · rw [List.isEmpty_iff.mp he] at hkc
        simp at hkc
      · exact hkd
    obtain ⟨_, hkslot⟩ := hdiscs k hkdisc
    have hform : forcePhase ops gd st1 =
        { st1 with
          slots := st1.slots.set k (st1.nextId, Geo.bridged (slotAt st1 k).2 none)
          nextId := st1.nextId + 1
          painted := st1.painted ++ [Geo.bridged (slotAt st1 k).2 none]
          connected := [k]
          disconnected := st1.disconnected.erase k } := by
      unfold forcePhase
      rw [if_pos he]
      rfl
    have hslotk : slotAt (forcePhase ops gd st1) k =
        (st1.nextId, Geo.bridged (slotAt st1 k).2 none) := by
      rw [hform]
      show (st1.slots.set k _).getD k (0, default) = _
      rw [getD_set_self _ _ _ _ (by rw [hlen]; exact hkn)]
    have hslotO : ∀ j, j ≠ k → slotAt (forcePhase ops gd st1) j = slotAt st1 j := by
      intro j hj
      rw [hform]
      show (st1.slots.set k _).getD j (0, default) = _
      rw [getD_set_ne _ _ _ _ _ hj]
      rfl
    refine ⟨?_, by rw [hform]; show n ≤ st1.nextId + 1; omega, ?_, ?_, ?_, ?_, ?_, ?_, ?_⟩
    · rw [hform]
      show (st1.slots.set k _).length = n
      rw [List.length_set]
      exact hlen
    · intro j hj
      by_cases hjk : j = k
      · subst hjk
        rw [hslotk, hform]
        show st1.nextId < st1.nextId + 1
        omega
      · rw [hslotO j hjk, hform]
        show (slotAt st1 j).1 < st1.nextId + 1
        have := hids j hj
        omega
    · intro j hj
      by_cases hjk : j = k
      · subst hjk
        rw [hslotk]
        intro hlow
        have h2 : st1.nextId < n := hlow
        omega
      · rw [hslotO j hjk]
        exact hidlow j hj
    · intro j hjmem
      rw [hform] at hjmem
      have hjmem2 : j ∈ st1.disconnected.erase k := hjmem
      obtain ⟨hjk, hjd⟩ := (List.Nodup.mem_erase_iff hnd).mp hjmem2
      obtain ⟨hjn, hjslot⟩ := hdiscs j hjd
      exact ⟨hjn, by rw [hslotO j hjk]; exact hjslot⟩
    · intro j hjmem
      rw [hform] at hjmem
      have hjk : j = k := List.mem_singleton.mp hjmem
      subst hjk
      refine ⟨hkn, ?_⟩
      rw [hslotk]
      rfl
    · rw [hform]
      exact List.Nodup.erase k hnd
    · intro j hjmem
      rw [hform] at hjmem
      have hjk : j = k := List.mem_singleton.mp hjmem
      subst hjk
      rw [hform]
      intro hmem
      exact absurd ((List.Nodup.mem_erase_iff hnd).mp hmem).1 (by simp)
    · intro j hj
      by_cases hjk : j = k
      · subst hjk
        rw [hform]
        exact Or.inl (List.mem_singleton.mpr rfl)
      · rcases hcover j hj with hjc | hjd
        · rw [List.isEmpty_iff.mp he] at hjc
          simp at hjc
        · rw [hform]
          exact Or.inr ((List.Nodup.mem_erase_iff hnd).mpr ⟨hjk, hjd⟩)
  · have hform : forcePhase ops (groundDists ops chunks) st1 = st1 := by
      unfold forcePhase
      rw [if_neg he]
    rw [hform]
    exact hinv

/-- C1: Ground-connectivity invariant.  For every nonempty chunk list (and
any distance functions), the resolver ends with an empty disconnected set,
and every Burrow outline returned by connect_burrow_chunks is grounded:
built from a directly classified chunk, a forced or classified bridge to
the ground line, or merges that chain back to such a chunk.  In
particular no returned Burrow consists solely of chunks still in the
disconnected set. -/

theorem connect_burrow_chunks_grounded (gdf : Geo → ℚ) (df : Geo → Geo → ℚ)
    (n : ℕ) (hn : 0 < n) :
    (resolveState (geoOps gdf df) ((List.range n).map Geo.base)).disconnected = [] ∧
    ∀ b ∈ (connectBurrowChunks (geoOps gdf df) ((List.range n).map Geo.base)).1,
      grounded (classifyPhase (geoOps gdf df) ((List.range n).map Geo.base)).connected
        b = true := by
  set ops := geoOps gdf df with hops
  set chunks := (List.range n).map Geo.base with hchunks
  set S := (classifyPhase ops chunks).connected with hS
  set st2 := forcePhase ops (groundDists ops chunks) (classifyPhase ops chunks) with hst2
  have hlenc : chunks.length = n := baseChunks_length n
  have hconnne : st2.connected ≠ [] := force_connected_ne_nil ops _ _
  have hres : resolveState ops chunks =
      mergeLoop ops (burrowDist ops chunks) st2.disconnected.length st2 := rfl
  have hdiscnil : (resolveState ops chunks).disconnected = [] := by
    rw [hres]
    exact mergeLoop_reaches_empty ops _ _ st2 hconnne le_rfl
  have hinv : Inv n S (resolveState ops chunks) := by
    rw [hres]
    exact inv_mergeLoop gdf df _ n S _ st2 (inv_after_force gdf df n hn) hconnne
  refine ⟨hdiscnil, ?_⟩
  intro b hb
  have hcne : chunks ≠ [] := by
    intro h
    rw [h] at hlenc
    simp at hlenc
    omega
  have hie : chunks.isEmpty = false := by
    cases hie2 : chunks.isEmpty
    · rfl
    · exact absurd (List.isEmpty_iff.mp hie2) hcne
  have hcb : (connectBurrowChunks ops chunks).1 =
      (uniqueById (resolveState ops chunks).slots).map fun s => ops.regC s.2 := by
    unfold connectBurrowChunks
    rw [if_neg (by rw [hie]; exact Bool.false_ne_true)]
  rw [hcb] at hb
  obtain ⟨s, hsmem, hsb⟩ := List.mem_map.mp hb
  have hs2 : s ∈ (resolveState ops chunks).slots := mem_of_uniqueByIdAux [] _ s hsmem
  obtain ⟨j, hj1, hj2⟩ := mem_getD_index _ s hs2 (0, default)
  obtain ⟨hlen, _, _, _, _, hconns, _, _, hcover⟩ := hinv
  have hjn : j < n := by
    rw [hlen] at hj1
    exact hj1
  have hjconn : j ∈ (resolveState ops chunks).connected := by
    rcases hcover j hjn with h | h
    · exact h
    · rw [hdiscnil] at h
      simp at h
  have hg := (hconns j hjconn).2
  have hsl : slotAt (resolveState ops chunks) j = s := hj2
  rw [hsl] at hg
  rw [← hsb]
  show grounded S s.2 = true
  exact hg

/-- Closed witness for connect_burrow_chunks_grounded with two chunks at
ground distance 2 and pairwise distance 5. -/

theorem connect_burrow_chunks_grounded_witness :
    0 < 2 ∧
    ((resolveState (geoOps (fun _ => 2) (fun _ _ => 5))
        ((List.range 2).map Geo.base)).disconnected = [] ∧
      ∀ b ∈ (connectBurrowChunks (geoOps (fun _ => 2) (fun _ _ => 5))
          ((List.range 2).map Geo.base)).1,
        grounded (classifyPhase (geoOps (fun _ => 2) (fun _ _ => 5))
          ((List.range 2).map Geo.base)).connected b = true) :=
  ⟨by decide, connect_burrow_chunks_grounded (fun _ => 2) (fun _ _ => 5) 2 (by decide)⟩

lemma firstMatch_some {q : ℕ → Bool} :
    ∀ (l : List ℕ) (s k : ℕ), firstMatch q l s = some k →
      s ≤ k ∧ k - s < l.length ∧ q (l.getD (k - s) 0) = true := by
  intro l
  induction l with
  | nil => intro s k h; simp [firstMatch] at h
  | cons j rest ih =>
    intro s k h
    unfold firstMatch at h
    by_cases hq : q j
    · rw [if_pos hq] at h
      have hk : k = s := (Option.some_inj.mp h).symm
      subst hk
      exact ⟨le_rfl, by simp, by simpa using hq⟩
    · rw [if_neg hq] at h
      obtain ⟨h1, h2, h3⟩ := ih (s + 1) k h
      refine ⟨by omega, by simp; omega, ?_⟩
      have hidx : k - s = (k - (s + 1)) + 1 := by omega
      rw [hidx]
      exact h3

lemma firstMatch_none {q : ℕ → Bool} :
    ∀ (l : List ℕ) (s : ℕ), (∀ i ∈ l, q i = false) → firstMatch q l s = none := by
  intro l
  induction l with
  | nil => intro s _; rfl
  | cons j rest ih =>
    intro s hall
    unfold firstMatch
    rw [if_neg (by rw [hall j (List.mem_cons_self _ _)]; exact Bool.false_ne_true)]
    exact ih (s + 1) fun i hi => hall i (List.mem_cons_of_mem _ hi)

lemma firstMatch_first (q : ℕ → Bool) :
    ∀ (l : List ℕ) (k : ℕ), k < l.length → q (l.getD k 0) = true →
      (∀ j, j < k → q (l.getD j 0) = false) → ∀ s, firstMatch q l s = some (s + k) := by
  intro l
  induction l with
  | nil => intro k h; simp at h
  | cons a rest ih =>
    intro k hk hq hfirst s
    cases k with
    | zero =>
      unfold firstMatch
      rw [if_pos (by simpa using hq)]
      rfl
    | succ k2 =>
      unfold firstMatch
      rw [if_neg (by
        rw [show q a = false by simpa using hfirst 0 (Nat.succ_pos k2)]
        exact Bool.false_ne_true)]
      have := ih k2 (by simpa using hk) (by simpa using hq)
        (fun j hj => by simpa using hfirst (j + 1) (by omega)) (s + 1)
      rw [this]
      congr 1
      omega

/-- C6: Greedy first-match association.  While add_burrows_to_tracks
processes one Burrow against the frame-start snapshot, the first snapshot
track (in order) whose last outline the Burrow intersects is the only one
affected: its position is recorded and its history is extended exactly
when the Burrow differs from its last outline, and no further snapshot
track is scanned or modified; a Burrow intersecting no snapshot track
appends one brand-new track starting at the current frame and records
nothing. -/

theorem add_burrows_first_match {α : Type} [DecidableEq α] (inter : α → α → Bool)
    (fid : ℕ) (snap : List ℕ) (st : TState α) (b : α) :
    (∀ k, k < snap.length →
      matchesB inter b (st.tracks.getD (snap.getD k 0) default) = true →
      (∀ j, j < k → matchesB inter b (st.tracks.getD (snap.getD j 0) default) = false) →
      (stepBurrow inter fid snap st b).tracks =
        (if (st.tracks.getD (snap.getD k 0) default).lastB = some b then st.tracks
         else st.tracks.set (snap.getD k 0)
           ((st.tracks.getD (snap.getD k 0) default).appendB fid b)) ∧
      (stepBurrow inter fid snap st b).extended = st.extended ++ [k]) ∧
    ((∀ i ∈ snap, matchesB inter b (st.tracks.getD i default) = false) →
      (stepBurrow inter fid snap st b).tracks = st.tracks ++ [mkTrack fid b] ∧
      (stepBurrow inter fid snap st b).extended = st.extended) := by
  constructor
  · intro k hk hq hfirst
    have hfm := firstMatch_first (fun i => matchesB inter b (st.tracks.getD i default))
      snap k hk hq hfirst 0
    rw [Nat.zero_add] at hfm
    unfold stepBurrow
    rw [hfm]
    exact ⟨rfl, rfl⟩
  · intro hall
    have hfm := firstMatch_none snap 0 fun i hi => hall i hi
    unfold stepBurrow
    rw [hfm]
    exact ⟨rfl, rfl⟩

/-- Closed witness for add_burrows_first_match: one active track whose
last outline equals the burrow; the first (only) snapshot position is
recorded and nothing is appended. -/

theorem add_burrows_first_match_witness :
    (stepBurrow (fun x y => x == y) 1 [0]
      ⟨[⟨[(0, 5)], true⟩], []⟩ (5 : ℕ)).extended = [] ++ [0] :=
  ((add_burrows_first_match (fun x y => x == y) 1 [0] ⟨[⟨[(0, 5)], true⟩], []⟩ 5).1
    0 (by decide) (by decide) fun j hj => absurd hj (Nat.not_lt_zero j)).2

lemma stepBurrow_tracks_length {α : Type} [DecidableEq α] (inter : α → α → Bool)
    (fid : ℕ) (snap : List ℕ) (st : TState α) (b : α) :
    st.tracks.length ≤ (stepBurrow inter fid snap st b).tracks.length := by
  unfold stepBurrow
  cases h : firstMatch (fun i => matchesB inter b (st.tracks.getD i default)) snap 0 with
  | none => simp
  | some k =>
    show st.tracks.length ≤
      (if (st.tracks.getD (snap.getD k 0) default).lastB = some b then st.tracks
       else st.tracks.set (snap.getD k 0)
         ((st.tracks.getD (snap.getD k 0) default).appendB fid b)).length
    split
    · exact le_rfl
    · rw [List.length_set]

lemma stepBurrow_preserve {α : Type} [DecidableEq α] (inter : α → α → Bool)
    (fid : ℕ) (snap : List ℕ) (st : TState α) (b : α) (i : ℕ)
    (hi : i < st.tracks.length) (hnot : i ∉ snap) :
    (stepBurrow inter fid snap st b).tracks.getD i default =
      st.tracks.getD i default := by
  unfold stepBurrow
  cases h : firstMatch (fun i => matchesB inter b (st.tracks.getD i default)) snap 0 with
  | none =>
    show (st.tracks ++ [mkTrack fid b]).getD i default = _
    rw [List.getD_append _ _ _ _ hi]
  | some k =>
    obtain ⟨_, hk2, _⟩ := firstMatch_some snap 0 k h
    show (if (st.tracks.getD (snap.getD k 0) default).lastB = some b then st.tracks
       else st.tracks.set (snap.getD k 0)
         ((st.tracks.getD (snap.getD k 0) default).appendB fid b)).getD i default = _
    split
    · rfl
    · have hmem : snap.getD k 0 ∈ snap := getD_mem_of_lt _ _ _ (by simpa using hk2)
      exact getD_set_ne _ _ _ _ _ fun hq => hnot (hq ▸ hmem)

lemma foldBurrows_length {α : Type} [DecidableEq α] (inter : α → α → Bool)
    (fid : ℕ) (snap : List ℕ) :
    ∀ (burrows : List α) (st : TState α),
      st.tracks.length ≤ (burrows.foldl (stepBurrow inter fid snap) st).tracks.length := by
  intro burrows
  induction burrows with
  | nil => intro st; exact le_rfl
  | cons b bs ih =>
    intro st
    exact le_trans (stepBurrow_tracks_length inter fid snap st b)
      (ih (stepBurrow inter fid snap st b))

lemma foldBurrows_notmem {α : Type} [DecidableEq α] (inter : α → α → Bool)
    (fid : ℕ) (snap : List ℕ) (i : ℕ) (hnot : i ∉ snap) :
    ∀ (burrows : List α) (st : TState α), i < st.tracks.length →
      (burrows.foldl (stepBurrow inter fid snap) st).tracks.getD i default =
        st.tracks.getD i default := by
  intro burrows
  induction burrows with
  | nil => intro st _; rfl
  | cons b bs ih =>
    intro st hi
    have h1 := stepBurrow_preserve inter fid snap st b i hi hnot
    have h2 := stepBurrow_tracks_length inter fid snap st b
    rw [List.foldl_cons, ih (stepBurrow inter fid snap st b) (by omega), h1]

lemma foldBurrows_unmatched {α : Type} [DecidableEq α] (inter : α → α → Bool)
    (fid : ℕ) (snap : List ℕ) (i : ℕ) (t0 : Track α) :
    ∀ (burrows : List α) (st : TState α),
      (∀ b ∈ burrows, matchesB inter b t0 = false) →
      st.tracks.getD i default = t0 →
      (∀ k ∈ st.extended, k < snap.length ∧ snap.getD k 0 ≠ i) →
      i < st.tracks.length →
      ((burrows.foldl (stepBurrow inter fid snap) st).tracks.getD i default = t0 ∧
       (∀ k ∈ (burrows.foldl (stepBurrow inter fid snap) st).extended,
         k < snap.length ∧ snap.getD k 0 ≠ i) ∧
       i < (burrows.foldl (stepBurrow inter fid snap) st).tracks.length) := by
  intro burrows
  induction burrows with
  | nil => intro st _ h1 h2 h3; exact ⟨h1, h2, h3⟩
  | cons b bs ih =>
    intro st hall h1 h2 h3
    have hb := hall b (List.mem_cons_self _ _)
    have hstep : (stepBurrow inter fid snap st b).tracks.getD i default = t0 ∧
        (∀ k ∈ (stepBurrow inter fid snap st b).extended,
          k < snap.length ∧ snap.getD k 0 ≠ i) ∧
        i < (stepBurrow inter fid snap st b).tracks.length := by
      unfold stepBurrow
      cases h : firstMatch (fun j => matchesB inter b (st.tracks.getD j default)) snap 0 with
      | none =>
        refine ⟨?_, h2, by simpa using Nat.lt_succ_of_lt h3⟩
        show (st.tracks ++ [mkTrack fid b]).getD i default = t0
        rw [List.getD_append _ _ _ _ h3]
        exact h1
      | some k =>
        obtain ⟨_, hk2, hk3⟩ := firstMatch_some snap 0 k h
        have hk2b : k < snap.length := by simpa using hk2
        have hi2ne : snap.getD k 0 ≠ i := by
          intro hq
          have : matchesB inter b (st.tracks.getD (snap.getD k 0) default) = true := by
            simpa using hk3
          rw [hq, h1, hb] at this
          exact Bool.noConfusion this
        refine ⟨?_, ?_, ?_⟩
        · show (if (st.tracks.getD (snap.getD k 0) default).lastB = some b then st.tracks
             else st.tracks.set (snap.getD k 0)
               ((st.tracks.getD (snap.getD k 0) default).appendB fid b)).getD i default = t0
          split
          · exact h1
          · rw [getD_set_ne _ _ _ _ _ fun hq => hi2ne hq.symm]
            exact h1
        · show ∀ k2 ∈ st.extended ++ [k], k2 < snap.length ∧ snap.getD k2 0 ≠ i
          intro k2 hk2mem
          rcases List.mem_append.mp hk2mem with hold | hnew
          · exact h2 k2 hold
          · have : k2 = k := List.mem_singleton.mp hnew
            subst this
            exact ⟨hk2b, hi2ne⟩
        · show i < (if (st.tracks.getD (snap.getD k 0) default).lastB = some b then st.tracks
             else st.tracks.set (snap.getD k 0)
               ((st.tracks.getD (snap.getD k 0) default).appendB fid b)).length
          split
          · exact h3
          · rw [List.length_set]
            exact h3
    exact ih (stepBurrow inter fid snap st b)
      (fun b2 hb2 => hall b2 (List.mem_cons_of_mem _ hb2)) hstep.1 hstep.2.1 hstep.2.2

lemma deactLoop_length {α : Type} (ext : List ℕ) :
    ∀ (snap : List ℕ) (k : ℕ) (tr : List (Track α)),
      (deactLoop ext snap k tr).length = tr.length := by
  intro snap
  induction snap with
  | nil => intro k tr; rfl
  | cons j rest ih =>
    intro k tr
    show (deactLoop ext rest (k + 1) _).length = tr.length
    rw [ih]
    split
    · rfl
    · rw [List.length_set]

lemma deactLoop_notmem {α : Type} (ext : List ℕ) (i : ℕ) :
    ∀ (snap : List ℕ) (k : ℕ) (tr : List (Track α)), i ∉ snap →
      (deactLoop ext snap k tr).getD i default = tr.getD i default := by
  intro snap
  induction snap with
  | nil => intro k tr _; rfl
  | cons j rest ih =>
    intro k tr hnot
    have hji : i ≠ j := fun h => hnot (h ▸ List.mem_cons_self j rest)
    have hrest : i ∉ rest := fun h => hnot (List.mem_cons_of_mem j h)
    show (deactLoop ext rest (k + 1) _).getD i default = tr.getD i default
    rw [ih (k + 1) _ hrest]
    split
    · rfl
    · exact getD_set_ne _ _ _ _ _ hji

lemma deactLoop_hits {α : Type} (ext : List ℕ) (i : ℕ) :
    ∀ (snap : List ℕ) (k : ℕ) (tr : List (Track α)) (pos : ℕ),
      snap.Nodup → pos < snap.length → snap.getD pos 0 = i → (k + pos) ∉ ext →
      i < tr.length →
      (deactLoop ext snap k tr).getD i default =
        { tr.getD i default with active := false } := by
  intro snap
  induction snap with
  | nil => intro k tr pos _ hpos; simp at hpos
  | cons j rest ih =>
    intro k tr pos hnd hpos hgd hext hi
    cases pos with
    | zero =>
      have hji : j = i := hgd
      subst hji
      have hkext : k ∉ ext := by simpa using hext
      have hjrest : j ∉ rest := (List.nodup_cons.mp hnd).1
      show (deactLoop ext rest (k + 1) _).getD j default = _
      rw [deactLoop_notmem ext j rest (k + 1) _ hjrest]
      rw [if_neg hkext]
      rw [getD_set_self _ _ _ _ hi]
    | succ p =>
      have hp2 : p < rest.length := by simpa using hpos
      have hival : rest.getD p 0 = i := hgd
      have hirest : i ∈ rest := hival ▸ getD_mem_of_lt rest p 0 hp2
      have hji : j ≠ i := fun h => (List.nodup_cons.mp hnd).1 (h ▸ hirest)
      show (deactLoop ext rest (k + 1)
        (if k ∈ ext then tr else tr.set j { tr.getD j default with active := false })).getD
          i default = _
      have htr : (if k ∈ ext then tr
          else tr.set j { tr.getD j default with active := false }).getD i default =
          tr.getD i default := by
        split
        · rfl
        · exact getD_set_ne _ _ _ _ _ (Ne.symm hji)
      have hlen : i < (if k ∈ ext then tr
          else tr.set j { tr.getD j default with active := false }).length := by
        split
        · exact hi
        · rw [List.length_set]
          exact hi
      rw [ih (k + 1) _ p (List.nodup_cons.mp hnd).2 hp2 hival
        (by rw [show k + 1 + p = k + (p + 1) by omega]; exact hext) hlen]
      rw [htr]

/-- C7: Track deactivation is terminal.  The track list never shrinks.
An inactive track is excluded from the frame-start snapshot and its entry
is completely untouched by add_burrows_to_tracks — in any later frame it
is never matched or extended, so a geometrically identical Burrow can
only create a new track.  An active track matched by no Burrow of the
frame keeps its history and ends the frame with its active flag set to
False. -/

theorem track_deactivation_terminal {α : Type} [DecidableEq α] (inter : α → α → Bool)
    (fid : ℕ) (burrows : List α) (tracks : List (Track α)) (i : ℕ)
    (hi : i < tracks.length) :
    tracks.length ≤ (addBurrowsToTracks inter fid burrows tracks).length ∧
    ((tracks.getD i default).active = false →
      i ∉ activeIdx tracks ∧
      (addBurrowsToTracks inter fid burrows tracks).getD i default =
        tracks.getD i default) ∧
    ((tracks.getD i default).active = true →
      (∀ b ∈ burrows, matchesB inter b (tracks.getD i default) = false) →
      (addBurrowsToTracks inter fid burrows tracks).getD i default =
        { tracks.getD i default with active := false }) := by
  set snap := activeIdx tracks with hsnap
  have hsnodup : snap.Nodup := (List.nodup_range _).filter _
  set F := burrows.foldl (stepBurrow inter fid snap) ⟨tracks, []⟩ with hF
  have hadd : addBurrowsToTracks inter fid burrows tracks =
      deactLoop F.extended snap 0 F.tracks := rfl
  have hFlen : tracks.length ≤ F.tracks.length :=
    foldBurrows_length inter fid snap burrows ⟨tracks, []⟩
  refine ⟨?_, fun hina => ?_, fun hact hall => ?_⟩
  · rw [hadd, deactLoop_length]
    exact hFlen
  · have hnot : i ∉ snap := by
      intro hmem
      have := (List.mem_filter.mp hmem).2
      rw [hina] at this
      exact Bool.noConfusion this
    refine ⟨hnot, ?_⟩
    rw [hadd, deactLoop_notmem _ _ _ _ _ hnot]
    exact foldBurrows_notmem inter fid snap i hnot burrows ⟨tracks, []⟩ hi
  · have hmem : i ∈ snap := by
      rw [hsnap]
      exact List.mem_filter.mpr ⟨List.mem_range.mpr hi, hact⟩
    obtain ⟨pos, hpos, hgd⟩ := mem_getD_index snap i hmem 0
    obtain ⟨hFi, hFext, hFlen2⟩ := foldBurrows_unmatched inter fid snap i
      (tracks.getD i default) burrows ⟨tracks, []⟩ hall rfl (by intro k hk; simp at hk) hi
    have hposext : (0 + pos) ∉ F.extended := by
      rw [Nat.zero_add]
      intro hmem2
      exact (hFext pos hmem2).2 hgd
    rw [hadd, deactLoop_hits F.extended i snap 0 F.tracks pos hsnodup hpos hgd hposext hFlen2,
      hFi]

/-- Closed witness for track_deactivation_terminal: a single active track
whose last outline matches no burrow of the frame ends it deactivated with
its history intact. -/

theorem track_deactivation_terminal_witness :
    0 < ([⟨[(0, (1 : ℕ))], true⟩] : List (Track ℕ)).length ∧
    (addBurrowsToTracks (fun x y => x == y) 2 [(2 : ℕ)]
        [⟨[(0, 1)], true⟩]).getD 0 default =
      { (([⟨[(0, (1 : ℕ))], true⟩] : List (Track ℕ)).getD 0 default) with
        active := false } :=
  ⟨by decide,
    (track_deactivation_terminal (fun x y => x == y) 2 [2] [⟨[(0, 1)], true⟩] 0
      (by decide)).2.2 rfl (by decide)⟩

end Pass4
